import Mathlib

/-!
# GoPerceptron: a verification development for `perceptron.go`

The Go program keeps a weight vector and a bias and trains them with the
delta rule.  This file embeds the program's functions in Lean and proves
properties of them.

Modelling decisions.

* Properties that name the formula or the structure a function computes are
  stated on an embedding in which a `float64` is an exact element of a linear
  ordered field `α` (instantiate `α := ℚ` to evaluate).  The single place where
  IEEE arithmetic is visible there is the division `0 / 0` of `verify`, which
  is modelled by `fdiv`.
* Properties that depend on rounding (`sigmoid`, strict growth under
  `backPropagate`) are stated on an embedding in `float64` arithmetic: the type
  `F64` with rounding to nearest, ties to even, overflow to an infinity and
  gradual underflow.  Negative zero is not distinguished from zero.
* A slice is a `List`.  Indexing a slice out of range is a run-time panic in
  Go; a function that only reads returns `Option` (`none` is the panic), a
  method that mutates its receiver returns `Exec`, which records the state of
  the receiver when the method returned or panicked.  `feedForward` and
  `verify` are also embedded as statement sequences on the receiver
  (`feedForwardExec`, `verifyExec`), which hand the receiver from one statement
  to the next.
* `make` panics on a capacity that is negative or needs more than `maxAlloc`
  bytes.
* `rand.Float64` is modelled by the sequence `rnd : Nat → α` of its successive
  results.
* Library functions: `math.Exp` is a parameter of `sigmoid`, and `expSamples`
  gives its values at the sample points used; the format verb `%0.2f` is a
  parameter of `String`, with the model `sprintf02f` on rationals;
  `strings.Join` is modelled by `stringsJoin`.
-/

namespace GoPerceptron

/-- The struct `perceptron`: a slice of weights and a bias. -/
structure perceptron (α : Type) where
  weights : List α
  bias : α
deriving DecidableEq

/-- Outcome of a method that mutates its receiver: the receiver's state when
the method returned normally, or when a run-time panic stopped it. -/
inductive Exec (σ : Type) where
  | returned (s : σ)
  | panicked (s : σ)
deriving DecidableEq

/-- Result of a `float64` division: a number, or one of the IEEE values a
division by zero produces. -/
inductive Quo (α : Type) where
  | num (x : α)
  | posInf
  | negInf
  | nan
deriving DecidableEq

variable {α : Type} [LinearOrderedField α]

/-- Division of `float64` values `a / b`: Go does not panic on a zero divisor,
`0 / 0` is NaN and `a / 0` is an infinity with the sign of `a`. -/
def fdiv (a b : α) : Quo α :=
  if b = 0 then
    if a = 0 then Quo.nan else if 0 < a then Quo.posInf else Quo.negInf
  else Quo.num (a / b)

/-- The loop of `newPerceptron`: `remaining` more iterations, each appending
`1 - 2*rand.Float64()`; `drawn` counts the draws made so far. -/
def newPerceptronLoop (rnd : Nat → α) : Nat → Nat → List α → List α
  | 0, _, weights => weights
  | remaining + 1, drawn, weights =>
    newPerceptronLoop rnd remaining (drawn + 1) (weights ++ [1 - 2 * rnd drawn])

/-- The runtime constant `maxAlloc` of a 64-bit platform (linux/amd64): the
largest number of bytes a single allocation may ask for. -/
def maxAlloc : Nat := 2 ^ 48

/-- Function `newPerceptron(dimensions)`.  `make([]float64, 0, dimensions)`
panics (`makeslice: cap out of range`) for a negative capacity and for a
capacity whose 8-byte elements need more than `maxAlloc` bytes, before any
random draw; running out of memory below that limit is not modelled.  The
bias takes the first draw, the weights the following ones. -/
def newPerceptron (dimensions : Int) (rnd : Nat → α) : Option (perceptron α) :=
  if dimensions < 0 ∨ (maxAlloc : Int) < 8 * dimensions then none
  else some
    { weights := newPerceptronLoop rnd dimensions.toNat 1 []
      bias := 1 - 2 * rnd 0 }

/-- The loop of `feedForward`: `for i := range input { result += input[i] * p.weights[i] }`,
at index `i` with the rest of `input` still to visit. -/
def feedForwardLoop (weights : List α) : List α → Nat → α → Option α
  | [], _, result => some result
  | x :: rest, i, result =>
    match weights[i]? with
    | some w => feedForwardLoop weights rest (i + 1) (result + x * w)
    | none => none

/-- Method `feedForward(input, descision)`. -/
def feedForward (p : perceptron α) (input : List α) (descision : α → α) : Option α :=
  (feedForwardLoop p.weights input 0 p.bias).map descision

/-- The loop of `backPropagate`:
`for i := range input { p.weights[i] += rate * delta * input[i] }`. -/
def backPropagateLoop (delta rate : α) : List α → Nat → perceptron α → Exec (perceptron α)
  | [], _, p => Exec.returned p
  | x :: rest, i, p =>
    match p.weights[i]? with
    | some w =>
      backPropagateLoop delta rate rest (i + 1)
        { p with weights := p.weights.set i (w + rate * delta * x) }
    | none => Exec.panicked p

/-- Method `backPropagate(input, delta, rate)`: the bias is updated first, then
the loop runs over the indices of `input`. -/
def backPropagate (p : perceptron α) (input : List α) (delta rate : α) : Exec (perceptron α) :=
  backPropagateLoop delta rate input 0 { p with bias := p.bias + rate * delta }

/-- The loop of `learn`, at index `i` with the rest of `inputs` still to visit:
`p.backPropagate(inputs[i], class[i]-p.feedForward(inputs[i], descision), rate)`. -/
def learnLoop (descision : α → α) (cls : List α) (rate : α) :
    List (List α) → Nat → perceptron α → Exec (perceptron α)
  | [], _, p => Exec.returned p
  | x :: rest, i, p =>
    match cls[i]? with
    | none => Exec.panicked p
    | some c =>
      match feedForward p x descision with
      | none => Exec.panicked p
      | some predicted =>
        match backPropagate p x (c - predicted) rate with
        | Exec.returned q => learnLoop descision cls rate rest (i + 1) q
        | Exec.panicked q => Exec.panicked q

/-- Method `learn(descision, inputs, class, rate)`. -/
def learn (p : perceptron α) (descision : α → α) (inputs : List (List α)) (cls : List α)
    (rate : α) : Exec (perceptron α) :=
  learnLoop descision cls rate inputs 0 p

/-- The loop of `verify`: `correct--` for every index whose prediction differs
from `class[i]`. -/
def verifyLoop (p : perceptron α) (cls : List α) (descision : α → α) :
    List (List α) → Nat → α → Option α
  | [], _, correct => some correct
  | x :: rest, i, correct =>
    match feedForward p x descision with
    | none => none
    | some predicted =>
      match cls[i]? with
      | none => none
      | some c =>
        verifyLoop p cls descision rest (i + 1) (if predicted ≠ c then correct - 1 else correct)

/-- Method `verify(inputs, class, descision)`: `count := float64(len(inputs))`,
`correct := count`, the loop, then `correct / count`. -/
def verify (p : perceptron α) (inputs : List (List α)) (cls : List α) (descision : α → α) :
    Option (Quo α) :=
  (verifyLoop p cls descision inputs 0 (inputs.length : α)).map
    (fun correct => fdiv correct (inputs.length : α))

/-- Function `threshold(x)`. -/
def threshold (x : α) : α :=
  if 0 < x then 1 else 0

/-- Repeated training, as a caller does it: `n` successive calls of `learn` on
the same dataset; a panic stops the sequence. -/
def learnPasses (descision : α → α) (inputs : List (List α)) (cls : List α) (rate : α) :
    Nat → perceptron α → Exec (perceptron α)
  | 0, p => Exec.returned p
  | n + 1, p =>
    match learn p descision inputs cls rate with
    | Exec.returned q => learnPasses descision inputs cls rate n q
    | Exec.panicked q => Exec.panicked q

/-! ## Definitions that follow the specification's words -/

/-- Specification §4.2, forward evaluation: `raw = bias + Σ_i weights[i] * input[i]`,
the result is `decisionFn raw`. -/
def specForward (p : perceptron α) (input : List α) (decisionFn : α → α) : α :=
  decisionFn (p.bias + (List.zipWith (fun w x => w * x) p.weights input).sum)

/-- Specification §4.3, the delta rule: `bias ← bias + rate*delta` and
`weights[i] ← weights[i] + rate*delta*input[i]` for each index. -/
def specUpdate (p : perceptron α) (input : List α) (delta rate : α) : perceptron α :=
  { weights := List.zipWith (fun w x => w + rate * delta * x) p.weights input
    bias := p.bias + rate * delta }

/-- Specification §4.4, one step of a training pass on the sample `(input, label)`:
predict on the current state, take `delta = label - predicted`, update at once. -/
def specLearnStep (decisionFn : α → α) (rate : α) (p : perceptron α) (sample : List α × α) :
    perceptron α :=
  specUpdate p sample.1 (sample.2 - specForward p sample.1 decisionFn) rate

/-- Specification §4.4, one epoch: the left-to-right fold of `specLearnStep`
over the samples in dataset order. -/
def specLearn (decisionFn : α → α) (rate : α) (p : perceptron α) (dataset : List (List α × α)) :
    perceptron α :=
  dataset.foldl (specLearnStep decisionFn rate) p

/-- One step of `learn` written with the program's own methods: the fold step
on outcomes, a panic being absorbing. -/
def learnStep (descision : α → α) (rate : α) (s : Exec (perceptron α)) (sample : List α × α) :
    Exec (perceptron α) :=
  match s with
  | Exec.panicked p => Exec.panicked p
  | Exec.returned p =>
    match feedForward p sample.1 descision with
    | none => Exec.panicked p
    | some predicted => backPropagate p sample.1 (sample.2 - predicted) rate

/-- Weights after the loop of `backPropagate` has visited `input`: the common
prefix is updated, weights beyond the end of `input` are kept. -/
def updatedWeights (c : α) : List α → List α → List α
  | w :: ws, x :: xs => (w + c * x) :: updatedWeights c ws xs
  | ws, [] => ws
  | [], _ :: _ => []

/-- Inputs of the convergence scenario of the specification (§8). -/
def scenarioInputs : List (List α) := [[1, 1], [-1, -1], [1, -1], [-1, 1]]

/-- Labels of the convergence scenario of the specification (§8). -/
def scenarioClass : List α := [1, 0, 1, 0]

/-! ## Arithmetic of `float64`

Where a property depends on rounding, the functions are embedded with the
arithmetic of IEEE 754 binary64 (round to nearest, ties to even, overflow to
an infinity, gradual underflow).  A finite value is the rational number it
denotes; negative zero is not distinguished from zero. -/

/-- A value of type `float64`: a finite number, an infinity, or NaN. -/
inductive F64 where
  | fin (x : ℚ)
  | posInf
  | negInf
  | nan
deriving DecidableEq

/-- Rounding of a rational to the nearest integer, a tie going to the even one. -/
def roundHalfEven (q : ℚ) : ℤ :=
  if q - ⌊q⌋ < 1 / 2 then ⌊q⌋
  else if 1 / 2 < q - ⌊q⌋ then ⌊q⌋ + 1
  else if ⌊q⌋ % 2 = 0 then ⌊q⌋ else ⌊q⌋ + 1

/-- Spacing of the binary64 numbers around the magnitude `a`: 52 fraction bits
below the exponent of `a`, the exponent being at least `-1022` (subnormals). -/
def ulp (a : ℚ) : ℚ := (2 : ℚ) ^ (max (Int.log 2 a) (-1022) - 52)

/-- Rounding of a magnitude `a >= 0` to the grid of its binade. -/
def roundMag (a : ℚ) : ℚ := roundHalfEven (a / ulp a) * ulp a

/-- Rounding of a rational to the binary64 grid, exponent unbounded above:
the sign and the rounded magnitude. -/
def roundToGrid (x : ℚ) : ℚ := if 0 ≤ x then roundMag x else -roundMag (-x)

/-- Rounding of an exact result to `float64`: a rounded magnitude of `2^1024`
or more overflows to an infinity. -/
def F64.round (x : ℚ) : F64 :=
  if (2 : ℚ) ^ 1024 ≤ roundToGrid x then F64.posInf
  else if roundToGrid x ≤ -(2 : ℚ) ^ 1024 then F64.negInf
  else F64.fin (roundToGrid x)

/-- Comparison `a <= b` of Go on `float64`: false when an operand is NaN. -/
def F64.le : F64 → F64 → Bool
  | F64.nan, _ => false
  | _, F64.nan => false
  | F64.negInf, _ => true
  | _, F64.posInf => true
  | F64.posInf, _ => false
  | _, F64.negInf => false
  | F64.fin a, F64.fin b => decide (a ≤ b)

/-- Comparison `a < b` of Go on `float64`: false when an operand is NaN. -/
def F64.lt : F64 → F64 → Bool
  | F64.nan, _ => false
  | _, F64.nan => false
  | F64.posInf, _ => false
  | _, F64.negInf => false
  | F64.negInf, _ => true
  | _, F64.posInf => true
  | F64.fin a, F64.fin b => decide (a < b)

/-- The value is `+Inf` or a finite number that is not negative. -/
def F64.nonneg : F64 → Bool
  | F64.fin a => decide (0 ≤ a)
  | F64.posInf => true
  | _ => false

/-- The value is a finite number that `float64` represents exactly. -/
def F64.isNumber : F64 → Bool
  | F64.fin a => decide (F64.round a = F64.fin a)
  | _ => false

/-- The value is a finite number greater than zero. -/
def F64.isPositive : F64 → Bool
  | F64.fin a => decide (0 < a)
  | _ => false

/-- Sum `a + b` of `float64` values. -/
def F64.add : F64 → F64 → F64
  | F64.nan, _ => F64.nan
  | _, F64.nan => F64.nan
  | F64.posInf, F64.negInf => F64.nan
  | F64.negInf, F64.posInf => F64.nan
  | F64.posInf, _ => F64.posInf
  | _, F64.posInf => F64.posInf
  | F64.negInf, _ => F64.negInf
  | _, F64.negInf => F64.negInf
  | F64.fin a, F64.fin b => F64.round (a + b)

/-- Product `a * b` of `float64` values. -/
def F64.mul : F64 → F64 → F64
  | F64.nan, _ => F64.nan
  | _, F64.nan => F64.nan
  | F64.fin a, F64.fin b => F64.round (a * b)
  | F64.posInf, F64.fin b => if b = 0 then F64.nan else if 0 < b then F64.posInf else F64.negInf
  | F64.negInf, F64.fin b => if b = 0 then F64.nan else if 0 < b then F64.negInf else F64.posInf
  | F64.fin a, F64.posInf => if a = 0 then F64.nan else if 0 < a then F64.posInf else F64.negInf
  | F64.fin a, F64.negInf => if a = 0 then F64.nan else if 0 < a then F64.negInf else F64.posInf
  | F64.posInf, F64.posInf => F64.posInf
  | F64.negInf, F64.negInf => F64.posInf
  | F64.posInf, F64.negInf => F64.negInf
  | F64.negInf, F64.posInf => F64.negInf

/-- Quotient `a / b` of `float64` values; a division by zero is no panic. -/
def F64.div : F64 → F64 → F64
  | F64.nan, _ => F64.nan
  | _, F64.nan => F64.nan
  | F64.fin a, F64.fin b =>
    if b = 0 then
      if a = 0 then F64.nan else if 0 < a then F64.posInf else F64.negInf
    else F64.round (a / b)
  | F64.fin _, F64.posInf => F64.fin 0
  | F64.fin _, F64.negInf => F64.fin 0
  | F64.posInf, F64.fin b => if 0 ≤ b then F64.posInf else F64.negInf
  | F64.negInf, F64.fin b => if 0 ≤ b then F64.negInf else F64.posInf
  | F64.posInf, F64.posInf => F64.nan
  | F64.posInf, F64.negInf => F64.nan
  | F64.negInf, F64.posInf => F64.nan
  | F64.negInf, F64.negInf => F64.nan

/-- Function `sigmoid(x)`: `1 / (1 + 1/math.Exp(x))` in `float64` arithmetic.
The library function `math.Exp` is taken as the parameter `exp`. -/
def sigmoid (exp : F64 → F64) (x : F64) : F64 :=
  F64.div (F64.fin 1) (F64.add (F64.fin 1) (F64.div (F64.fin 1) (exp x)))

/-- Values of the library function `math.Exp` at the sample points `-710`, `0`,
`36`, `36.25` and `37` (the `float64` nearest to `e^x`), continued as a
non-decreasing step function between them, with the special cases
`Exp(-Inf) = 0`, `Exp(+Inf) = +Inf` and `Exp(NaN) = NaN`. -/
def expSamples : F64 → F64
  | F64.nan => F64.nan
  | F64.negInf => F64.fin 0
  | F64.posInf => F64.posInf
  | F64.fin q =>
    if q ≤ -710 then F64.fin (906010418525123 * (2 : ℚ) ^ (-1074 : ℤ))
    else if q ≤ 0 then F64.fin 1
    else if q ≤ 36 then F64.fin 4311231547115195
    else if q ≤ 145 / 4 then F64.fin 5535730883721925
    else F64.fin 11719142372802612

/-- The loop of `backPropagate` in `float64` arithmetic:
`for i := range input { p.weights[i] += rate * delta * input[i] }`. -/
def backPropagate64Loop (delta rate : F64) :
    List F64 → Nat → perceptron F64 → Exec (perceptron F64)
  | [], _, p => Exec.returned p
  | x :: rest, i, p =>
    match p.weights[i]? with
    | some w =>
      backPropagate64Loop delta rate rest (i + 1)
        { p with weights := p.weights.set i (F64.add w (F64.mul (F64.mul rate delta) x)) }
    | none => Exec.panicked p

/-- Method `backPropagate(input, delta, rate)` in `float64` arithmetic: every
product and every sum is rounded. -/
def backPropagate64 (p : perceptron F64) (input : List F64) (delta rate : F64) :
    Exec (perceptron F64) :=
  backPropagate64Loop delta rate input 0 { p with bias := F64.add p.bias (F64.mul rate delta) }

/-! ## Method calls on a receiver, and formatting -/

/-- The receiver's state at the end of a call, returned or panicked. -/
def Exec.state {σ : Type} : Exec σ → σ
  | Exec.returned s => s
  | Exec.panicked s => s

/-- A call of one of the four methods of a perceptron, with its arguments. -/
inductive Call (α : Type) where
  | feedForward (input : List α) (descision : α → α)
  | backPropagate (input : List α) (delta rate : α)
  | learn (descision : α → α) (inputs : List (List α)) (cls : List α) (rate : α)
  | verify (inputs : List (List α)) (cls : List α) (descision : α → α)

/-- Outcome of a method call that yields a value: the receiver's state and the
value when the call returned, the receiver's state when it panicked. -/
inductive Outcome (σ β : Type) where
  | returned (s : σ) (v : β)
  | panicked (s : σ)

/-- The receiver's state at the end of a call that yields a value. -/
def Outcome.state {σ β : Type} : Outcome σ β → σ
  | Outcome.returned s _ => s
  | Outcome.panicked s => s

/-- The value a call returned, if it returned. -/
def Outcome.value {σ β : Type} : Outcome σ β → Option β
  | Outcome.returned _ v => some v
  | Outcome.panicked _ => none

/-- Forgets the value of an outcome. -/
def Outcome.toExec {σ β : Type} : Outcome σ β → Exec σ
  | Outcome.returned s _ => Exec.returned s
  | Outcome.panicked s => Exec.panicked s

/-- The loop of `feedForward` as a statement sequence on the receiver `p`:
each iteration reads `p.weights[i]` from the current receiver and hands the
receiver on to the next iteration. -/
def feedForwardExecLoop : List α → Nat → α → perceptron α → Outcome (perceptron α) α
  | [], _, result, p => Outcome.returned p result
  | x :: rest, i, result, p =>
    match p.weights[i]? with
    | some w => feedForwardExecLoop rest (i + 1) (result + x * w) p
    | none => Outcome.panicked p

/-- Method `feedForward(input, descision)` run on the receiver `p`:
`result := p.bias`, the loop, `return descision(result)`. -/
def feedForwardExec (input : List α) (descision : α → α) (p : perceptron α) :
    Outcome (perceptron α) α :=
  match feedForwardExecLoop input 0 p.bias p with
  | Outcome.returned q result => Outcome.returned q (descision result)
  | Outcome.panicked q => Outcome.panicked q

/-- The loop of `verify` run on the receiver: each iteration calls
`p.feedForward` on the current receiver and continues with the receiver that
call left. -/
def verifyExecLoop (cls : List α) (descision : α → α) :
    List (List α) → Nat → α → perceptron α → Outcome (perceptron α) α
  | [], _, correct, p => Outcome.returned p correct
  | x :: rest, i, correct, p =>
    match feedForwardExec x descision p with
    | Outcome.panicked q => Outcome.panicked q
    | Outcome.returned q predicted =>
      match cls[i]? with
      | none => Outcome.panicked q
      | some c =>
        verifyExecLoop cls descision rest (i + 1)
          (if predicted ≠ c then correct - 1 else correct) q

/-- Method `verify(inputs, class, descision)` run on the receiver `p`. -/
def verifyExec (inputs : List (List α)) (cls : List α) (descision : α → α) (p : perceptron α) :
    Outcome (perceptron α) (Quo α) :=
  match verifyExecLoop cls descision inputs 0 (inputs.length : α) p with
  | Outcome.returned q correct => Outcome.returned q (fdiv correct (inputs.length : α))
  | Outcome.panicked q => Outcome.panicked q

/-- Effect of a call on the receiver: the state in which the method's body,
run on the receiver, ends. -/
def runCall (c : Call α) (p : perceptron α) : Exec (perceptron α) :=
  match c with
  | Call.feedForward input descision => (feedForwardExec input descision p).toExec
  | Call.backPropagate input delta rate => backPropagate p input delta rate
  | Call.learn descision inputs cls rate => learn p descision inputs cls rate
  | Call.verify inputs cls descision => (verifyExec inputs cls descision p).toExec

/-- A sequence of calls on one perceptron, each on the state the previous one
left; a panic ends the sequence. -/
def runCalls : List (Call α) → perceptron α → Exec (perceptron α)
  | [], p => Exec.returned p
  | c :: rest, p =>
    match runCall c p with
    | Exec.returned q => runCalls rest q
    | Exec.panicked q => Exec.panicked q

/-- Every input vector passed by the call has length `d`. -/
def Call.inputsHaveLength (d : Nat) : Call α → Bool
  | Call.feedForward input _ => input.length == d
  | Call.backPropagate input _ _ => input.length == d
  | Call.learn _ inputs _ _ => inputs.all (fun x => x.length == d)
  | Call.verify inputs _ _ => inputs.all (fun x => x.length == d)

/-- The call is one of `feedForward` and `verify`. -/
def Call.readOnly : Call α → Bool
  | Call.feedForward _ _ => true
  | Call.verify _ _ _ => true
  | Call.backPropagate _ _ _ => false
  | Call.learn _ _ _ _ => false

/-- Library function `strings.Join(a, sep)`: empty for no element, else the
first element followed by `sep` and the next element, in turn. -/
def stringsJoinLoop (sep : String) : List String → String → String
  | [], b => b
  | s :: rest, b => stringsJoinLoop sep rest (b ++ sep ++ s)

/-- Library function `strings.Join(a, sep)`. -/
def stringsJoin (a : List String) (sep : String) : String :=
  match a with
  | [] => ""
  | s :: rest => stringsJoinLoop sep rest s

/-- Two decimal digits of a number below 100. -/
def twoDigits (n : Nat) : String :=
  String.mk [Char.ofNat (48 + n / 10 % 10), Char.ofNat (48 + n % 10)]

/-- Library call `fmt.Sprintf("%0.2f", x)` on a finite value given as a
rational: the sign, then `|x|` rounded to the nearest hundredth (a tie goes to
the even hundredth), written with its integer part, a point and two digits. -/
def sprintf02f (x : ℚ) : String :=
  let scaled := x.num.natAbs * 100
  let q := scaled / x.den
  let r := scaled % x.den
  let n := if 2 * r < x.den then q
    else if x.den < 2 * r then q + 1
    else if q % 2 = 0 then q else q + 1
  (if x < 0 then "-" else "") ++ toString (n / 100) ++ "." ++ twoDigits (n % 100)

/-- The loop of `String`:
`for i := range p.weights { a = append(a, fmt.Sprintf("%0.2f", p.weights[i])) }`,
with the rest of the weights still to visit; `fmt02` renders one value. -/
def stringLoop (fmt02 : α → String) : List α → List String → List String
  | [], a => a
  | w :: rest, a => stringLoop fmt02 rest (a ++ [fmt02 w])

/-- Method `String()`: `fmt.Sprintf("[%s], %0.2f", strings.Join(a, ", "), p.bias)`,
where `fmt02` is the rendering of the verb `%0.2f`. -/
def perceptron.String (fmt02 : α → String) (p : perceptron α) : String :=
  "[" ++ stringsJoin (stringLoop fmt02 p.weights []) ", " ++ "], " ++ fmt02 p.bias

/-! ## Lemmas on the loops -/

theorem feedForwardLoop_prefix (pre : List α) :
    ∀ (input suf : List α) (result : α), input.length ≤ suf.length →
      feedForwardLoop (pre ++ suf) input pre.length result
        = some (result + (List.zipWith (fun w x => w * x) suf input).sum) := by
  intro input
  induction input generalizing pre with
  | nil => intro suf result _; simp [feedForwardLoop]
  | cons x rest ih =>
    intro suf result h
    cases suf with
    | nil => simp at h
    | cons w suf =>
      have h1 : rest.length ≤ suf.length := by simpa using h
      have h2 := ih (pre ++ [w]) suf (result + x * w) h1
      simp only [List.length_append, List.length_singleton, List.append_assoc,
        List.singleton_append] at h2
      simp only [feedForwardLoop, List.getElem?_append_right (le_refl _), Nat.sub_self,
        List.getElem?_cons_zero, h2, List.zipWith_cons_cons, List.sum_cons]
      congr 1
      ring

theorem feedForwardLoop_overrun (pre : List α) :
    ∀ (input suf : List α) (result : α), suf.length < input.length →
      feedForwardLoop (pre ++ suf) input pre.length result = none := by
  intro input
  induction input generalizing pre with
  | nil => intro suf result h; simp at h
  | cons x rest ih =>
    intro suf result h
    cases suf with
    | nil => simp [feedForwardLoop]
    | cons w suf =>
      have h1 : suf.length < rest.length := by simpa using h
      have h2 := ih (pre ++ [w]) suf (result + x * w) h1
      simp only [List.length_append, List.length_singleton, List.append_assoc,
        List.singleton_append] at h2
      simp only [feedForwardLoop, List.getElem?_append_right (le_refl _), Nat.sub_self,
        List.getElem?_cons_zero, h2]

theorem feedForward_of_le (p : perceptron α) (input : List α) (f : α → α)
    (h : input.length ≤ p.weights.length) :
    feedForward p input f = some (specForward p input f) := by
  have := feedForwardLoop_prefix [] input p.weights p.bias h
  simp only [List.nil_append, List.length_nil] at this
  simp [feedForward, specForward, this]

theorem feedForward_of_lt (p : perceptron α) (input : List α) (f : α → α)
    (h : p.weights.length < input.length) :
    feedForward p input f = none := by
  have := feedForwardLoop_overrun [] input p.weights p.bias h
  simp only [List.nil_append, List.length_nil] at this
  simp [feedForward, this]

theorem zipWith_mul_sum_eq_sum_fin :
    ∀ (ws xs : List α) (h : xs.length = ws.length),
      (List.zipWith (fun w x => w * x) ws xs).sum
        = ∑ i : Fin ws.length, ws.get i * xs.get (i.cast h.symm) := by
  intro ws
  induction ws with
  | nil => intro xs h; simp
  | cons w ws ih =>
    intro xs h
    cases xs with
    | nil => simp at h
    | cons x xs =>
      have h1 : xs.length = ws.length := by simpa using h
      rw [List.zipWith_cons_cons, List.sum_cons, ih xs h1]
      simp only [List.length_cons]
      rw [Fin.sum_univ_succ]
      simp

theorem updatedWeights_nil (c : α) (ws : List α) : updatedWeights c ws [] = ws := by
  cases ws <;> rfl

theorem updatedWeights_eq_zipWith (c : α) :
    ∀ (ws xs : List α), xs.length = ws.length →
      updatedWeights c ws xs = List.zipWith (fun w x => w + c * x) ws xs := by
  intro ws
  induction ws with
  | nil => intro xs h; cases xs <;> simp_all [updatedWeights]
  | cons w ws ih =>
    intro xs h
    cases xs with
    | nil => simp at h
    | cons x xs => simp [updatedWeights, ih xs (by simpa using h)]

theorem updatedWeights_getElem? (c : α) :
    ∀ (ws xs : List α) (i : Nat),
      (updatedWeights c ws xs)[i]? =
        match ws[i]?, xs[i]? with
        | some w, some x => some (w + c * x)
        | some w, none => if xs.length ≤ ws.length then some w else none
        | none, _ => none := by
  intro ws
  induction ws with
  | nil => intro xs i; cases xs <;> simp [updatedWeights]
  | cons w ws ih =>
    intro xs i
    cases xs with
    | nil => simp [updatedWeights]; cases h : (w :: ws)[i]? <;> simp
    | cons x xs =>
      cases i with
      | zero => simp [updatedWeights]
      | succ i => simp [updatedWeights, ih xs i]

theorem backPropagateLoop_prefix (delta rate b : α) (pre : List α) :
    ∀ (input suf : List α),
      backPropagateLoop delta rate input pre.length ⟨pre ++ suf, b⟩
        = if input.length ≤ suf.length
          then Exec.returned ⟨pre ++ updatedWeights (rate * delta) suf input, b⟩
          else Exec.panicked ⟨pre ++ updatedWeights (rate * delta) suf input, b⟩ := by
  intro input
  induction input generalizing pre with
  | nil => intro suf; simp [backPropagateLoop, updatedWeights_nil]
  | cons x rest ih =>
    intro suf
    cases suf with
    | nil => simp [backPropagateLoop, updatedWeights]
    | cons w suf =>
      have h2 := ih (pre ++ [w + rate * delta * x]) suf
      simp only [List.length_append, List.length_singleton, List.append_assoc,
        List.singleton_append] at h2
      simp only [backPropagateLoop, List.getElem?_append_right (le_refl _), Nat.sub_self,
        List.getElem?_cons_zero, List.set_append_right _ _ (le_refl _), List.set_cons_zero, h2,
        updatedWeights, List.length_cons, Nat.add_le_add_iff_right]

theorem backPropagate_eq (p : perceptron α) (input : List α) (delta rate : α) :
    backPropagate p input delta rate
      = if input.length ≤ p.weights.length
        then Exec.returned ⟨updatedWeights (rate * delta) p.weights input, p.bias + rate * delta⟩
        else Exec.panicked ⟨updatedWeights (rate * delta) p.weights input, p.bias + rate * delta⟩ := by
  have := backPropagateLoop_prefix delta rate (p.bias + rate * delta) [] input p.weights
  simpa [backPropagate] using this

theorem backPropagate_of_eq (p : perceptron α) (input : List α) (delta rate : α)
    (h : input.length = p.weights.length) :
    backPropagate p input delta rate = Exec.returned (specUpdate p input delta rate) := by
  rw [backPropagate_eq, if_pos (le_of_eq h), updatedWeights_eq_zipWith _ _ _ h]
  rfl

theorem specUpdate_weights_length (p : perceptron α) (input : List α) (delta rate : α)
    (h : input.length = p.weights.length) :
    (specUpdate p input delta rate).weights.length = p.weights.length := by
  simp [specUpdate, h]

theorem learnLoop_prefix (f : α → α) (rate : α) (pre : List α) :
    ∀ (inputs : List (List α)) (suf : List α) (p : perceptron α),
      inputs.length ≤ suf.length → (∀ x ∈ inputs, x.length = p.weights.length) →
      learnLoop f (pre ++ suf) rate inputs pre.length p
        = Exec.returned (specLearn f rate p (inputs.zip suf)) := by
  intro inputs
  induction inputs generalizing pre with
  | nil => intro suf p _ _; simp [learnLoop, specLearn]
  | cons x rest ih =>
    intro suf p hlen hdim
    cases suf with
    | nil => simp at hlen
    | cons c suf =>
      have hx : x.length = p.weights.length := hdim x (List.mem_cons_self _ _)
      have hrest : ∀ y ∈ rest, y.length
          = (specUpdate p x (c - specForward p x f) rate).weights.length := by
        intro y hy
        rw [specUpdate_weights_length _ _ _ _ hx]
        exact hdim y (List.mem_cons_of_mem _ hy)
      have h2 := ih (pre ++ [c]) suf _ (by simpa using hlen) hrest
      simp only [List.length_append, List.length_singleton, List.append_assoc,
        List.singleton_append] at h2
      simp only [learnLoop, List.getElem?_append_right (le_refl _), Nat.sub_self,
        List.getElem?_cons_zero, feedForward_of_le p x f (le_of_eq hx),
        backPropagate_of_eq p x _ rate hx, h2]
      simp [specLearn, specLearnStep]

theorem foldl_learnStep_panicked (f : α → α) (rate : α) :
    ∀ (data : List (List α × α)) (p : perceptron α),
      data.foldl (learnStep f rate) (Exec.panicked p) = Exec.panicked p := by
  intro data
  induction data with
  | nil => intro p; rfl
  | cons s data ih => intro p; simp [learnStep, ih]

theorem foldl_learnStep_returned (f : α → α) (rate : α) :
    ∀ (data : List (List α × α)) (p : perceptron α),
      (∀ s ∈ data, s.1.length = p.weights.length) →
      data.foldl (learnStep f rate) (Exec.returned p)
        = Exec.returned (specLearn f rate p data) := by
  intro data
  induction data with
  | nil => intro p _; rfl
  | cons s data ih =>
    intro p hdim
    have hs : s.1.length = p.weights.length := hdim s (List.mem_cons_self _ _)
    have hrest : ∀ t ∈ data, t.1.length
        = (specUpdate p s.1 (s.2 - specForward p s.1 f) rate).weights.length := by
      intro t ht
      rw [specUpdate_weights_length _ _ _ _ hs]
      exact hdim t (List.mem_cons_of_mem _ ht)
    simp only [List.foldl_cons, learnStep, feedForward_of_le p s.1 f (le_of_eq hs),
      backPropagate_of_eq p s.1 _ rate hs, ih _ hrest]
    simp [specLearn, specLearnStep]

theorem verifyLoop_prefix (p : perceptron α) (f : α → α) (pre : List α) :
    ∀ (inputs : List (List α)) (suf : List α) (correct : α),
      inputs.length ≤ suf.length → (∀ x ∈ inputs, x.length = p.weights.length) →
      verifyLoop p (pre ++ suf) f inputs pre.length correct
        = some (correct -
            ((inputs.zip suf).countP (fun s => decide (feedForward p s.1 f ≠ some s.2)) : Nat)) := by
  intro inputs
  induction inputs generalizing pre with
  | nil => intro suf correct _ _; simp [verifyLoop]
  | cons x rest ih =>
    intro suf correct hlen hdim
    cases suf with
    | nil => simp at hlen
    | cons c suf =>
      have hx : x.length = p.weights.length := hdim x (List.mem_cons_self _ _)
      have hrest : ∀ y ∈ rest, y.length = p.weights.length :=
        fun y hy => hdim y (List.mem_cons_of_mem _ hy)
      have h2 := fun correct => ih (pre ++ [c]) suf correct (by simpa using hlen) hrest
      simp only [List.length_append, List.length_singleton, List.append_assoc,
        List.singleton_append] at h2
      simp only [verifyLoop, List.getElem?_append_right (le_refl _), Nat.sub_self,
        List.getElem?_cons_zero, feedForward_of_le p x f (le_of_eq hx), h2, List.zip_cons_cons,
        List.countP_cons]
      by_cases hc : specForward p x f = c
      · simp [hc]
      · simp [hc]
        ring

theorem verify_eq_of_wellFormed (p : perceptron α) (f : α → α) (inputs : List (List α))
    (cls : List α) (hlen : inputs.length = cls.length)
    (hdim : ∀ x ∈ inputs, x.length = p.weights.length) :
    verify p inputs cls f
      = some (fdiv
          (((inputs.zip cls).countP (fun s => decide (feedForward p s.1 f = some s.2)) : Nat) : α)
          (inputs.length : α)) := by
  have h := verifyLoop_prefix p f [] inputs cls (inputs.length : α) (le_of_eq hlen) hdim
  simp only [List.nil_append, List.length_nil] at h
  have hcount := List.length_eq_countP_add_countP
    (fun s : List α × α => decide (feedForward p s.1 f = some s.2)) (inputs.zip cls)
  have hzip : (inputs.zip cls).length = inputs.length := by simp [hlen]
  rw [hzip] at hcount
  have hcast : (inputs.length : α)
      = (((inputs.zip cls).countP (fun s => decide (feedForward p s.1 f = some s.2)) : Nat) : α)
        + (((inputs.zip cls).countP
            (fun s => decide (feedForward p s.1 f ≠ some s.2)) : Nat) : α) := by
    have h3 : (fun s : List α × α => decide (feedForward p s.1 f ≠ some s.2))
        = (fun s : List α × α => decide ¬(decide (feedForward p s.1 f = some s.2) = true)) := by
      funext s
      simp
    rw [h3]
    exact_mod_cast hcount
  simp only [verify, h, Option.map_some']
  congr 2
  rw [eq_sub_iff_add_eq.mpr hcast.symm]

theorem zipWith_mul_sum_eq_sum_fin_of_le :
    ∀ (xs ws : List α) (h : xs.length ≤ ws.length),
      (List.zipWith (fun w x => w * x) ws xs).sum
        = ∑ i : Fin xs.length, ws.get (i.castLE h) * xs.get i := by
  intro xs
  induction xs with
  | nil => intro ws h; simp
  | cons x xs ih =>
    intro ws h
    cases ws with
    | nil => simp at h
    | cons w ws =>
      have h1 : xs.length ≤ ws.length := by simpa using h
      rw [List.zipWith_cons_cons, List.sum_cons, ih ws h1]
      simp only [List.length_cons]
      rw [Fin.sum_univ_succ]
      simp

theorem updatedWeights_length_eq (c : α) :
    ∀ (ws xs : List α), (updatedWeights c ws xs).length = ws.length := by
  intro ws
  induction ws with
  | nil => intro xs; cases xs <;> rfl
  | cons w ws ih =>
    intro xs
    cases xs with
    | nil => rfl
    | cons x xs => simp [updatedWeights, ih xs]

theorem newPerceptronLoop_mem (rnd : Nat → α) :
    ∀ (remaining drawn : Nat) (weights : List α) (w : α),
      w ∈ newPerceptronLoop rnd remaining drawn weights →
        w ∈ weights ∨ ∃ k, w = 1 - 2 * rnd k := by
  intro remaining
  induction remaining with
  | zero => intro drawn weights w hw; exact Or.inl hw
  | succ n ih =>
    intro drawn weights w hw
    rcases ih (drawn + 1) _ w hw with h | h
    · rcases List.mem_append.mp h with h | h
      · exact Or.inl h
      · exact Or.inr ⟨drawn, by simpa using h⟩
    · exact Or.inr h

theorem newPerceptron_of_inRange (d : Int) (hd : 0 ≤ d) (hcap : 8 * d ≤ (maxAlloc : Int))
    (rnd : Nat → α) :
    newPerceptron d rnd = some ⟨newPerceptronLoop rnd d.toNat 1 [], 1 - 2 * rnd 0⟩ := by
  have h : ¬ (d < 0 ∨ (maxAlloc : Int) < 8 * d) := by
    rintro (h | h)
    · exact absurd hd (not_le.mpr h)
    · exact absurd hcap (not_le.mpr h)
  simp only [newPerceptron, if_neg h]

/-- Values of a fresh perceptron: with every draw in `[0, 1)`, the bias and
every weight lie in the half-open interval `(-1, 1]`. -/
theorem newPerceptron_bounds (d : Int) (hd : 0 ≤ d) (hcap : 8 * d ≤ (maxAlloc : Int))
    (rnd : Nat → α) (hr : ∀ k, 0 ≤ rnd k ∧ rnd k < 1) :
    ∃ p, newPerceptron d rnd = some p ∧ (-1 < p.bias ∧ p.bias ≤ 1) ∧
      ∀ w ∈ p.weights, -1 < w ∧ w ≤ 1 := by
  have he := newPerceptron_of_inRange d hd hcap rnd
  refine ⟨_, he, ?_, ?_⟩
  · constructor <;> simp only <;> linarith [(hr 0).1, (hr 0).2]
  · intro w hw
    rcases newPerceptronLoop_mem rnd _ _ _ w hw with h | ⟨k, rfl⟩
    · simp at h
    · constructor <;> linarith [(hr k).1, (hr k).2]

/-! ## The convergence scenario

The dataset `[[1,1],[-1,-1],[1,-1],[-1,1]]` with labels `[1,0,1,0]`: the label
is `1` exactly when the first feature is `1`.  Every misclassified sample
raises the first weight by exactly `rate = 1/10` and does not raise the
potential `w1² + w2² + b² - (3/10)·w1`. -/

theorem specLearnStep_pair (f : α → α) (rate w1 w2 b x1 x2 c : α) :
    specLearnStep f rate ⟨[w1, w2], b⟩ ([x1, x2], c)
      = ⟨[w1 + rate * (c - f (b + (w1 * x1 + w2 * x2))) * x1,
          w2 + rate * (c - f (b + (w1 * x1 + w2 * x2))) * x2],
         b + rate * (c - f (b + (w1 * x1 + w2 * x2)))⟩ := by
  simp [specLearnStep, specUpdate, specForward]

theorem specLearnStep_scenario (w1 w2 b x1 x2 c : α)
    (hx1 : (x1 = 1 ∧ c = 1) ∨ (x1 = -1 ∧ c = 0)) (hx2 : x2 = 1 ∨ x2 = -1) :
    ∃ v1 v2 a, specLearnStep threshold (1 / 10) ⟨[w1, w2], b⟩ ([x1, x2], c) = ⟨[v1, v2], a⟩ ∧
      ((v1 = w1 ∧ v2 = w2 ∧ a = b ∧ threshold (b + (w1 * x1 + w2 * x2)) = c) ∨
       (v1 = w1 + 1 / 10 ∧
        v1 * v1 + v2 * v2 + a * a - 3 / 10 * v1 ≤ w1 * w1 + w2 * w2 + b * b - 3 / 10 * w1)) := by
  refine ⟨_, _, _, specLearnStep_pair threshold (1 / 10) w1 w2 b x1 x2 c, ?_⟩
  rcases hx1 with ⟨rfl, rfl⟩ | ⟨rfl, rfl⟩ <;> rcases hx2 with rfl | rfl <;>
    simp only [threshold] <;> split_ifs with h
  all_goals first
    | (left; exact ⟨by ring, by ring, by ring, rfl⟩)
    | (right; refine ⟨by ring, ?_⟩; linarith)

theorem learn_of_wellFormed (p : perceptron α) (f : α → α) (rate : α)
    (inputs : List (List α)) (cls : List α) (hlen : inputs.length = cls.length)
    (hdim : ∀ x ∈ inputs, x.length = p.weights.length) :
    learn p f inputs cls rate = Exec.returned (specLearn f rate p (inputs.zip cls)) := by
  have := learnLoop_prefix f rate [] inputs cls p (le_of_eq hlen) hdim
  simpa [learn] using this

theorem verify_of_all_correct (p : perceptron α) (f : α → α) (inputs : List (List α))
    (cls : List α) (hne : 1 ≤ inputs.length) (hlen : inputs.length = cls.length)
    (hdim : ∀ x ∈ inputs, x.length = p.weights.length)
    (hall : ∀ s ∈ inputs.zip cls, feedForward p s.1 f = some s.2) :
    verify p inputs cls f = some (Quo.num 1) := by
  have hn : (inputs.length : α) ≠ 0 := by
    have : (0 : α) < (inputs.length : α) := by exact_mod_cast hne
    exact ne_of_gt this
  have hcount : (inputs.zip cls).countP (fun s => decide (feedForward p s.1 f = some s.2))
      = inputs.length := by
    have h1 : (inputs.zip cls).countP (fun s => decide (feedForward p s.1 f = some s.2))
        = (inputs.zip cls).length := by
      rw [List.countP_eq_length]
      intro s hs
      simpa using hall s hs
    rw [h1]
    simp [hlen]
  rw [verify_eq_of_wellFormed p f inputs cls hlen hdim, hcount, fdiv, if_neg hn, div_self hn]

theorem learnPasses_of_fixed (f : α → α) (inputs : List (List α)) (cls : List α) (rate : α)
    (p : perceptron α) (h : learn p f inputs cls rate = Exec.returned p) :
    ∀ n, learnPasses f inputs cls rate n p = Exec.returned p := by
  intro n
  induction n with
  | zero => rfl
  | succ n ih => simp only [learnPasses, h, ih]

theorem specLearn_scenario (w1 w2 b : α) :
    ∃ v1 v2 a,
      specLearn threshold (1 / 10) ⟨[w1, w2], b⟩ (scenarioInputs.zip scenarioClass)
        = ⟨[v1, v2], a⟩ ∧
      ((v1 = w1 ∧ v2 = w2 ∧ a = b ∧
          ∀ s ∈ (scenarioInputs.zip scenarioClass : List (List α × α)),
            specForward ⟨[w1, w2], b⟩ s.1 threshold = s.2) ∨
       (w1 + 1 / 10 ≤ v1 ∧
        v1 * v1 + v2 * v2 + a * a - 3 / 10 * v1 ≤ w1 * w1 + w2 * w2 + b * b - 3 / 10 * w1)) := by
  obtain ⟨p1, p2, pb, e1, h1⟩ :=
    specLearnStep_scenario w1 w2 b 1 1 1 (Or.inl ⟨rfl, rfl⟩) (Or.inl rfl)
  obtain ⟨q1, q2, qb, e2, h2⟩ :=
    specLearnStep_scenario p1 p2 pb (-1) (-1) 0 (Or.inr ⟨rfl, rfl⟩) (Or.inr rfl)
  obtain ⟨r1, r2, rb, e3, h3⟩ :=
    specLearnStep_scenario q1 q2 qb 1 (-1) 1 (Or.inl ⟨rfl, rfl⟩) (Or.inr rfl)
  obtain ⟨t1, t2, tb, e4, h4⟩ :=
    specLearnStep_scenario r1 r2 rb (-1) 1 0 (Or.inr ⟨rfl, rfl⟩) (Or.inl rfl)
  refine ⟨t1, t2, tb, ?_, ?_⟩
  · simp only [specLearn, scenarioInputs, scenarioClass, List.zip_cons_cons, List.zip_nil_right,
      List.foldl_cons, List.foldl_nil, e1, e2, e3, e4]
  · have m2 : p1 ≤ q1 ∧ q1 * q1 + q2 * q2 + qb * qb - 3 / 10 * q1
        ≤ p1 * p1 + p2 * p2 + pb * pb - 3 / 10 * p1 := by
      rcases h2 with ⟨rfl, rfl, rfl, _⟩ | ⟨a, d⟩
      · exact ⟨le_refl _, le_refl _⟩
      · exact ⟨by linarith, d⟩
    have m3 : q1 ≤ r1 ∧ r1 * r1 + r2 * r2 + rb * rb - 3 / 10 * r1
        ≤ q1 * q1 + q2 * q2 + qb * qb - 3 / 10 * q1 := by
      rcases h3 with ⟨rfl, rfl, rfl, _⟩ | ⟨a, d⟩
      · exact ⟨le_refl _, le_refl _⟩
      · exact ⟨by linarith, d⟩
    have m4 : r1 ≤ t1 ∧ t1 * t1 + t2 * t2 + tb * tb - 3 / 10 * t1
        ≤ r1 * r1 + r2 * r2 + rb * rb - 3 / 10 * r1 := by
      rcases h4 with ⟨rfl, rfl, rfl, _⟩ | ⟨a, d⟩
      · exact ⟨le_refl _, le_refl _⟩
      · exact ⟨by linarith, d⟩
    rcases h1 with ⟨rfl, rfl, rfl, c1⟩ | ⟨a1, d1⟩
    swap
    · right
      exact ⟨by linarith [m2.1, m3.1, m4.1], by linarith [m2.2, m3.2, m4.2]⟩
    rcases h2 with ⟨rfl, rfl, rfl, c2⟩ | ⟨a2, d2⟩
    swap
    · right
      exact ⟨by linarith [m3.1, m4.1], by linarith [m3.2, m4.2]⟩
    rcases h3 with ⟨rfl, rfl, rfl, c3⟩ | ⟨a3, d3⟩
    swap
    · right
      exact ⟨by linarith [m4.1], by linarith [m4.2]⟩
    rcases h4 with ⟨rfl, rfl, rfl, c4⟩ | ⟨a4, d4⟩
    swap
    · right
      exact ⟨by linarith, by linarith⟩
    left
    refine ⟨rfl, rfl, rfl, ?_⟩
    intro s hs
    simp only [scenarioInputs, scenarioClass, List.zip_cons_cons, List.zip_nil_right,
      List.mem_cons, List.mem_singleton, List.not_mem_nil, or_false] at hs
    rcases hs with rfl | rfl | rfl | rfl
    · simpa [specForward] using c1
    · simpa [specForward] using c2
    · simpa [specForward] using c3
    · simpa [specForward] using c4

theorem scenario_wellFormed (w1 w2 b : α) :
    (scenarioInputs : List (List α)).length = (scenarioClass : List α).length ∧
    ∀ x ∈ (scenarioInputs : List (List α)),
      x.length = (⟨[w1, w2], b⟩ : perceptron α).weights.length := by
  constructor
  · rfl
  · intro x hx
    simp only [scenarioInputs, List.mem_cons, List.mem_singleton, List.not_mem_nil,
      or_false] at hx
    rcases hx with rfl | rfl | rfl | rfl <;> rfl

theorem learnPasses_scenario :
    ∀ (n : Nat) (w1 w2 b : α), ∃ v1 v2 a,
      learnPasses threshold scenarioInputs scenarioClass (1 / 10) n ⟨[w1, w2], b⟩
        = Exec.returned ⟨[v1, v2], a⟩ ∧
      ((∀ s ∈ (scenarioInputs.zip scenarioClass : List (List α × α)),
          specForward ⟨[v1, v2], a⟩ s.1 threshold = s.2) ∨
       (w1 + (n : α) / 10 ≤ v1 ∧
        v1 * v1 + v2 * v2 + a * a - 3 / 10 * v1 ≤ w1 * w1 + w2 * w2 + b * b - 3 / 10 * w1)) := by
  intro n
  induction n with
  | zero =>
    intro w1 w2 b
    exact ⟨w1, w2, b, rfl, Or.inr ⟨by simp, le_refl _⟩⟩
  | succ n ih =>
    intro w1 w2 b
    obtain ⟨u1, u2, c, he, hcase⟩ := specLearn_scenario w1 w2 b
    have hlearn : learn ⟨[w1, w2], b⟩ threshold scenarioInputs scenarioClass (1 / 10)
        = Exec.returned ⟨[u1, u2], c⟩ := by
      rw [learn_of_wellFormed _ _ _ _ _ (scenario_wellFormed w1 w2 b).1
        (scenario_wellFormed w1 w2 b).2, he]
    rcases hcase with ⟨rfl, rfl, rfl, hall⟩ | ⟨hw, hphi⟩
    · exact ⟨u1, u2, c, learnPasses_of_fixed _ _ _ _ _ hlearn (n + 1), Or.inl hall⟩
    · obtain ⟨v1, v2, a, hv, hcase2⟩ := ih u1 u2 c
      refine ⟨v1, v2, a, ?_, ?_⟩
      · simp only [learnPasses, hlearn, hv]
      · rcases hcase2 with hall | ⟨hw2, hphi2⟩
        · exact Or.inl hall
        · right
          refine ⟨?_, by linarith⟩
          push_cast
          linarith

/-! ## The claims -/

/-- C1: for an input of the perceptron's dimension, `feedForward` returns the
decision function applied to the bias plus the sum over all indices of
`weights[i] * input[i]`. -/
theorem feedForward_weighted_sum (p : perceptron α) (input : List α) (f : α → α)
    (h : input.length = p.weights.length) :
    feedForward p input f
      = some (f (p.bias + ∑ i : Fin p.weights.length, p.weights.get i * input.get (i.cast h.symm))) := by
  rw [feedForward_of_le p input f (le_of_eq h), specForward, zipWith_mul_sum_eq_sum_fin _ _ h]

theorem feedForward_weighted_sum_witness :
    feedForward (⟨[1, 2], 3⟩ : perceptron ℚ) [1, 1] threshold
      = some (threshold (3 + ∑ i : Fin 2, ([1, 2] : List ℚ).get i * ([1, 1] : List ℚ).get i)) :=
  feedForward_weighted_sum (⟨[1, 2], 3⟩ : perceptron ℚ) [1, 1] threshold rfl

/-- C2: for an input of the perceptron's dimension, `backPropagate` returns
normally; the new bias is the old bias plus `rate*delta`, the weight vector
keeps its length and every weight `i` becomes the old one plus
`rate*delta*input[i]`. -/
theorem backPropagate_delta_rule (p : perceptron α) (input : List α) (delta rate : α)
    (h : input.length = p.weights.length) :
    ∃ q, backPropagate p input delta rate = Exec.returned q ∧
      q.bias = p.bias + rate * delta ∧
      q.weights.length = p.weights.length ∧
      ∀ i : Fin p.weights.length,
        q.weights[i.val]? = some (p.weights.get i + rate * delta * input.get (i.cast h.symm)) := by
  refine ⟨specUpdate p input delta rate, backPropagate_of_eq p input delta rate h, rfl,
    specUpdate_weights_length p input delta rate h, ?_⟩
  intro i
  have hi : i.val < input.length := lt_of_lt_of_eq i.isLt h.symm
  simp [specUpdate, List.getElem?_zipWith, List.getElem?_eq_getElem i.isLt,
    List.getElem?_eq_getElem hi]

theorem backPropagate_delta_rule_witness :
    ∃ q, backPropagate (⟨[1, 2], 3⟩ : perceptron ℚ) [1, -1] 2 (1 / 2) = Exec.returned q ∧
      q.bias = 3 + 1 / 2 * 2 ∧
      q.weights.length = 2 ∧
      ∀ i : Fin 2, q.weights[i.val]?
        = some (([1, 2] : List ℚ).get i + 1 / 2 * 2 * ([1, -1] : List ℚ).get i) :=
  backPropagate_delta_rule (⟨[1, 2], 3⟩ : perceptron ℚ) [1, -1] 2 (1 / 2) rfl

/-- C3: on parallel sequences of equal length whose inputs all have the
perceptron's dimension, `learn` returns normally and its final state is the
left-to-right fold over the samples in dataset order, each step predicting on
the current state and applying the update before the next sample; the same
fold written with `feedForward` and `backPropagate` gives the same outcome. -/
theorem learn_eq_online_fold (p : perceptron α) (f : α → α) (rate : α)
    (inputs : List (List α)) (cls : List α)
    (hlen : inputs.length = cls.length)
    (hdim : ∀ x ∈ inputs, x.length = p.weights.length) :
    learn p f inputs cls rate = Exec.returned (specLearn f rate p (inputs.zip cls)) ∧
    learn p f inputs cls rate = (inputs.zip cls).foldl (learnStep f rate) (Exec.returned p) := by
  have h1 : learn p f inputs cls rate = Exec.returned (specLearn f rate p (inputs.zip cls)) := by
    have := learnLoop_prefix f rate [] inputs cls p (le_of_eq hlen) hdim
    simpa [learn] using this
  refine ⟨h1, ?_⟩
  rw [h1, foldl_learnStep_returned]
  intro s hs
  exact hdim s.1 (List.of_mem_zip hs).1

theorem learn_eq_online_fold_witness :
    learn (⟨[1, 2], 3⟩ : perceptron ℚ) threshold [[1, 1], [-1, -1]] [1, 0] (1 / 10)
        = Exec.returned (specLearn threshold (1 / 10) ⟨[1, 2], 3⟩
            ([[1, 1], [-1, -1]].zip [1, 0])) ∧
    learn (⟨[1, 2], 3⟩ : perceptron ℚ) threshold [[1, 1], [-1, -1]] [1, 0] (1 / 10)
        = ([[1, 1], [-1, -1]].zip [1, 0]).foldl (learnStep threshold (1 / 10))
            (Exec.returned ⟨[1, 2], 3⟩) :=
  learn_eq_online_fold (⟨[1, 2], 3⟩ : perceptron ℚ) threshold (1 / 10) [[1, 1], [-1, -1]] [1, 0]
    rfl (by simp)

/-- C4: on a non-empty well-formed dataset of `n` samples, `verify` returns
the number `m / n`, where `m` counts the positions `i` at which
`feedForward(inputs[i], f)` equals `class[i]`; the result lies in `[0, 1]`. -/
theorem verify_accuracy (p : perceptron α) (f : α → α) (inputs : List (List α)) (cls : List α)
    (hne : 1 ≤ inputs.length) (hlen : inputs.length = cls.length)
    (hdim : ∀ x ∈ inputs, x.length = p.weights.length) :
    verify p inputs cls f
      = some (Quo.num
          ((((inputs.zip cls).countP (fun s => decide (feedForward p s.1 f = some s.2)) : Nat) : α)
            / (inputs.length : α))) ∧
    (0 : α) ≤ (((inputs.zip cls).countP (fun s => decide (feedForward p s.1 f = some s.2)) : Nat) : α)
            / (inputs.length : α) ∧
    (((inputs.zip cls).countP (fun s => decide (feedForward p s.1 f = some s.2)) : Nat) : α)
            / (inputs.length : α) ≤ 1 := by
  have hn : (0 : α) < (inputs.length : α) := by exact_mod_cast hne
  have hm : (inputs.zip cls).countP (fun s => decide (feedForward p s.1 f = some s.2))
      ≤ inputs.length := by
    have := List.countP_le_length (fun s : List α × α => decide (feedForward p s.1 f = some s.2))
      (l := inputs.zip cls)
    simpa [hlen] using this
  refine ⟨?_, ?_, ?_⟩
  · rw [verify_eq_of_wellFormed p f inputs cls hlen hdim, fdiv, if_neg (ne_of_gt hn)]
  · exact div_nonneg (Nat.cast_nonneg _) (le_of_lt hn)
  · rw [div_le_one hn]
    exact_mod_cast hm

theorem verify_accuracy_witness :
    verify (⟨[1, 2], 4⟩ : perceptron ℚ) [[1, 1], [-1, -1]] [1, 0] threshold
      = some (Quo.num (1 / 2)) := by
  have h := (verify_accuracy (⟨[1, 2], 4⟩ : perceptron ℚ) threshold [[1, 1], [-1, -1]] [1, 0]
    (by decide) rfl (by simp)).1
  rw [h]
  norm_num [feedForward, feedForwardLoop, threshold, List.countP_cons]

/-- C5: from any perceptron of dimension 2 whose weights and bias lie in
`(-1, 1)`, 50 successive `learn` passes with `threshold` and rate `1/10` over
the scenario dataset return normally, and `verify` with `threshold` on the
same dataset then returns exactly `1`. -/
theorem convergence_scenario (p : perceptron α) (hdim : p.weights.length = 2)
    (hw : ∀ w ∈ p.weights, -1 < w ∧ w < 1) (hb : -1 < p.bias ∧ p.bias < 1) :
    ∃ q, learnPasses threshold scenarioInputs scenarioClass (1 / 10) 50 p = Exec.returned q ∧
      verify q scenarioInputs scenarioClass threshold = some (Quo.num 1) := by
  obtain ⟨ws, b⟩ := p
  obtain ⟨w1, w2, rfl⟩ := List.length_eq_two.mp hdim
  obtain ⟨v1, v2, a, hv, hcase⟩ := learnPasses_scenario 50 w1 w2 b
  refine ⟨⟨[v1, v2], a⟩, hv, ?_⟩
  rcases hcase with hall | ⟨h1, h2⟩
  · refine verify_of_all_correct _ _ _ _ (by simp [scenarioInputs])
      (scenario_wellFormed v1 v2 a).1 (scenario_wellFormed v1 v2 a).2 ?_
    intro s hs
    rw [feedForward_of_le _ _ _ (le_of_eq ((scenario_wellFormed v1 v2 a).2 s.1
      (List.of_mem_zip hs).1)), hall s hs]
  · exfalso
    have hw1 := hw w1 (by simp)
    have hw2 := hw w2 (by simp)
    simp only at hb
    have e1 : w1 * w1 < 1 := by nlinarith [hw1.1, hw1.2]
    have e2 : w2 * w2 < 1 := by nlinarith [hw2.1, hw2.2]
    have e3 : b * b < 1 := by nlinarith [hb.1, hb.2]
    have e4 : (4 : α) < v1 := by
      have : ((50 : Nat) : α) / 10 = 5 := by norm_num
      rw [this] at h1
      linarith [hw1.1]
    nlinarith [mul_self_nonneg v2, mul_self_nonneg a, mul_pos (by linarith : (0 : α) < v1 - 4)
      (by linarith : (0 : α) < v1 - 4)]

theorem convergence_scenario_witness :
    ∃ q, learnPasses threshold scenarioInputs scenarioClass (1 / 10) 50
        (⟨[1 / 2, -1 / 2], 0⟩ : perceptron ℚ) = Exec.returned q ∧
      verify q scenarioInputs scenarioClass threshold = some (Quo.num 1) :=
  convergence_scenario (⟨[1 / 2, -1 / 2], 0⟩ : perceptron ℚ) rfl
    (by intro w hw; simp at hw; rcases hw with rfl | rfl <;> norm_num) (by norm_num)

/-- C6 (counterexample): a perceptron of dimension 2 called with the input
`[1]` and `threshold` does not fail; it returns the decision on the sum
truncated to the first weight. -/
theorem feedForward_short_input_returns :
    feedForward (⟨[2, 5], -1⟩ : perceptron ℚ) [1] threshold = some (threshold (-1 + 2 * 1)) ∧
    feedForward (⟨[2, 5], -1⟩ : perceptron ℚ) [1] threshold ≠ none := by
  have h : feedForward (⟨[2, 5], -1⟩ : perceptron ℚ) [1] threshold
      = some (threshold (-1 + 2 * 1)) := by
    simp [feedForward, feedForwardLoop]
  exact ⟨h, by rw [h]; exact Option.some_ne_none _⟩

/-- C6 (amended): for an input whose length differs from the number of
weights, `feedForward` fails (index out of range) exactly when the input is
the longer one; for a shorter input it returns the decision function applied
to the bias plus the sum truncated to the indices of the input. -/
theorem feedForward_dimension_mismatch (p : perceptron α) (input : List α) (f : α → α)
    (h : input.length ≠ p.weights.length) :
    feedForward p input f
      = if hlt : input.length < p.weights.length
        then some (f (p.bias +
          ∑ i : Fin input.length, p.weights.get (i.castLE (le_of_lt hlt)) * input.get i))
        else none := by
  by_cases hlt : input.length < p.weights.length
  · rw [dif_pos hlt, feedForward_of_le p input f (le_of_lt hlt), specForward,
      zipWith_mul_sum_eq_sum_fin_of_le _ _ (le_of_lt hlt)]
  · rw [dif_neg hlt]
    exact feedForward_of_lt p input f (lt_of_le_of_ne (not_lt.mp hlt) (Ne.symm h))

theorem feedForward_dimension_mismatch_witness :
    feedForward (⟨[2, 5], -1⟩ : perceptron ℚ) [1, 1, 1] threshold = none := by
  rw [feedForward_dimension_mismatch (⟨[2, 5], -1⟩ : perceptron ℚ) [1, 1, 1] threshold
    (by decide)]
  rfl

/-- C7 (counterexample): with an input shorter than the weight vector
`backPropagate` completes normally, the bias and only the first weight
updated; with a longer input it panics and leaves the bias and the weights
modified. -/
theorem backPropagate_mismatch_modifies :
    backPropagate (⟨[1, 2], 3⟩ : perceptron ℚ) [1] 1 1 = Exec.returned ⟨[2, 2], 4⟩ ∧
    backPropagate (⟨[1, 2], 3⟩ : perceptron ℚ) [1, 1, 1] 1 1 = Exec.panicked ⟨[2, 3], 4⟩ := by
  constructor <;> norm_num [backPropagate, backPropagateLoop]

/-- C7 (amended): for an input whose length differs from the number of
weights, `backPropagate` ends in the state whose bias is the old bias plus
`rate*delta` and whose weight `i` is the old one plus `rate*delta*input[i]`
for the indices the input has, unchanged for the others; the call returns
normally when the input is the shorter one and panics, in that state, when it
is the longer one. -/
theorem backPropagate_dimension_mismatch (p : perceptron α) (input : List α) (delta rate : α)
    (h : input.length ≠ p.weights.length) :
    ∃ q, q.bias = p.bias + rate * delta ∧
      q.weights.length = p.weights.length ∧
      (∀ i : Fin p.weights.length,
        q.weights[i.val]? =
          if hx : i.val < input.length
          then some (p.weights.get i + rate * delta * input.get ⟨i.val, hx⟩)
          else some (p.weights.get i)) ∧
      backPropagate p input delta rate
        = if input.length < p.weights.length then Exec.returned q else Exec.panicked q := by
  refine ⟨⟨updatedWeights (rate * delta) p.weights input, p.bias + rate * delta⟩, rfl,
    updatedWeights_length_eq _ _ _, ?_, ?_⟩
  · intro i
    have hle : ¬ p.weights.length ≤ i.val := not_le.mpr i.isLt
    simp only [updatedWeights_getElem?, List.getElem?_eq_getElem i.isLt]
    by_cases hx : i.val < input.length
    · simp [hx, List.getElem?_eq_getElem hx]
    · have hle : input.length ≤ p.weights.length := by omega
      simp [hx, List.getElem?_eq_none (not_lt.mp hx), hle]
  · rw [backPropagate_eq]
    by_cases hlt : input.length < p.weights.length
    · rw [if_pos (le_of_lt hlt), if_pos hlt]
    · rw [if_neg (fun hle => hlt (lt_of_le_of_ne hle h)), if_neg hlt]

theorem backPropagate_dimension_mismatch_witness :
    ∃ q : perceptron ℚ, q.bias = 3 + 1 * 1 ∧
      q.weights.length = 2 ∧
      (∀ i : Fin 2,
        q.weights[i.val]? =
          if hx : i.val < 1
          then some (([1, 2] : List ℚ).get i + 1 * 1 * ([1] : List ℚ).get ⟨i.val, hx⟩)
          else some (([1, 2] : List ℚ).get i)) ∧
      backPropagate (⟨[1, 2], 3⟩ : perceptron ℚ) [1] 1 1
        = if 1 < 2 then Exec.returned q else Exec.panicked q :=
  backPropagate_dimension_mismatch (⟨[1, 2], 3⟩ : perceptron ℚ) [1] 1 1 (by decide)

/-- C8 (counterexample): `verify` on the empty dataset does not fail; it
returns the result of the division `0 / 0`. -/
theorem verify_empty_returns_nan :
    verify (⟨[1, 2], 3⟩ : perceptron ℚ) [] [] threshold = some Quo.nan ∧
    verify (⟨[1, 2], 3⟩ : perceptron ℚ) [] [] threshold ≠ none := by
  have h : verify (⟨[1, 2], 3⟩ : perceptron ℚ) [] [] threshold = some Quo.nan := by
    simp [verify, verifyLoop, fdiv]
  exact ⟨h, by rw [h]; exact Option.some_ne_none _⟩

/-- C8 (amended): for every perceptron and decision function, `verify` on the
empty dataset returns normally, and its result is the `float64` value of
`0 / 0` (NaN), not a number. -/
theorem verify_empty (p : perceptron α) (f : α → α) :
    verify p [] [] f = some (fdiv 0 0) ∧ (fdiv 0 0 : Quo α) = Quo.nan ∧
      ∀ x : α, verify p [] [] f ≠ some (Quo.num x) := by
  have h : verify p [] [] f = some (Quo.nan) := by
    simp [verify, verifyLoop, fdiv]
  refine ⟨by simp [h, fdiv], by simp [fdiv], ?_⟩
  intro x
  rw [h]
  simp

/-- C9 (counterexample): `newPerceptron(0)` is not rejected; it returns a
perceptron with an empty weight vector and only a bias. -/
theorem newPerceptron_zero_returns :
    newPerceptron 0 (fun _ => (1 / 4 : ℚ)) = some ⟨[], 1 / 2⟩ := by
  norm_num [newPerceptron, newPerceptronLoop, maxAlloc]

/-- C9 (amended): for `dimensions <= 0`, `newPerceptron` fails exactly when
`dimensions` is negative (the panic of `make` with a negative capacity);
`newPerceptron(0)` returns the perceptron with no weights whose bias is
`1 - 2*r` for the first draw `r`. -/
theorem newPerceptron_nonpositive (d : Int) (hd : d ≤ 0) (rnd : Nat → α) :
    newPerceptron d rnd = if d < 0 then none else some ⟨[], 1 - 2 * rnd 0⟩ := by
  by_cases h : d < 0
  · simp [newPerceptron, h]
  · have h0 : d = 0 := le_antisymm hd (not_lt.mp h)
    subst h0
    simp [newPerceptron, newPerceptronLoop, maxAlloc]

theorem newPerceptron_nonpositive_witness :
    newPerceptron (-3) (fun _ => (1 / 4 : ℚ)) = none := by
  rw [newPerceptron_nonpositive (-3) (by decide) (fun _ => (1 / 4 : ℚ))]
  rfl

/-- C10 (failing input): with dimension 1 and the random source returning `0`,
a value `rand.Float64` can return, the bias and the weight of the new
perceptron are `1 - 2*0 = 1`, which is not strictly below `1`. -/
theorem newPerceptron_draw_zero :
    ∃ p : perceptron ℚ, newPerceptron 1 (fun _ => (0 : ℚ)) = some p ∧
      p = ⟨[1], 1⟩ ∧ ¬ (p.bias < 1) ∧ ∃ w ∈ p.weights, ¬ (w < 1) := by
  refine ⟨⟨[1], 1⟩, ?_, rfl, by norm_num, 1, by simp, by norm_num⟩
  norm_num [newPerceptron, newPerceptronLoop, maxAlloc]

/-! ## Lemmas for the invariants and the algebra of `learn` -/

theorem newPerceptronLoop_length (rnd : Nat → α) :
    ∀ (remaining drawn : Nat) (weights : List α),
      (newPerceptronLoop rnd remaining drawn weights).length = weights.length + remaining := by
  intro remaining
  induction remaining with
  | zero => intro drawn weights; rfl
  | succ n ih =>
    intro drawn weights
    simp only [newPerceptronLoop, ih, List.length_append, List.length_singleton]
    omega

theorem backPropagate_state_length (p : perceptron α) (input : List α) (delta rate : α) :
    (backPropagate p input delta rate).state.weights.length = p.weights.length := by
  rw [backPropagate_eq]
  split_ifs <;> simp [Exec.state, updatedWeights_length_eq]

theorem learnLoop_state_length (f : α → α) (cls : List α) (rate : α) :
    ∀ (inputs : List (List α)) (i : Nat) (p : perceptron α),
      (learnLoop f cls rate inputs i p).state.weights.length = p.weights.length := by
  intro inputs
  induction inputs with
  | nil => intro i p; rfl
  | cons x rest ih =>
    intro i p
    simp only [learnLoop]
    cases cls[i]? with
    | none => rfl
    | some c =>
      cases feedForward p x f with
      | none => rfl
      | some predicted =>
        have hb := backPropagate_state_length p x (c - predicted) rate
        dsimp only
        cases hq : backPropagate p x (c - predicted) rate with
        | returned q =>
          rw [hq] at hb
          dsimp only
          rw [ih]
          exact hb
        | panicked q =>
          rw [hq] at hb
          exact hb

theorem feedForwardExecLoop_eq :
    ∀ (input : List α) (i : Nat) (result : α) (p : perceptron α),
      feedForwardExecLoop input i result p
        = match feedForwardLoop p.weights input i result with
          | some r => Outcome.returned p r
          | none => Outcome.panicked p := by
  intro input
  induction input with
  | nil => intro i result p; rfl
  | cons x rest ih =>
    intro i result p
    simp only [feedForwardExecLoop, feedForwardLoop]
    cases p.weights[i]? with
    | none => rfl
    | some w => exact ih (i + 1) (result + x * w) p

theorem feedForwardExec_eq (input : List α) (f : α → α) (p : perceptron α) :
    feedForwardExec input f p
      = match feedForward p input f with
        | some v => Outcome.returned p v
        | none => Outcome.panicked p := by
  simp only [feedForwardExec, feedForwardExecLoop_eq, feedForward]
  cases feedForwardLoop p.weights input 0 p.bias <;> rfl

theorem verifyExecLoop_eq (cls : List α) (f : α → α) :
    ∀ (inputs : List (List α)) (i : Nat) (correct : α) (p : perceptron α),
      verifyExecLoop cls f inputs i correct p
        = match verifyLoop p cls f inputs i correct with
          | some r => Outcome.returned p r
          | none => Outcome.panicked p := by
  intro inputs
  induction inputs with
  | nil => intro i correct p; rfl
  | cons x rest ih =>
    intro i correct p
    simp only [verifyExecLoop, verifyLoop, feedForwardExec_eq]
    cases feedForward p x f with
    | none => rfl
    | some predicted =>
      dsimp only
      cases cls[i]? with
      | none => rfl
      | some c => exact ih (i + 1) _ p

theorem verifyExec_eq (inputs : List (List α)) (cls : List α) (f : α → α) (p : perceptron α) :
    verifyExec inputs cls f p
      = match verify p inputs cls f with
        | some v => Outcome.returned p v
        | none => Outcome.panicked p := by
  simp only [verifyExec, verifyExecLoop_eq, verify]
  cases verifyLoop p cls f inputs 0 (inputs.length : α) <;> rfl

theorem feedForwardExec_state (input : List α) (f : α → α) (p : perceptron α) :
    (feedForwardExec input f p).state = p := by
  rw [feedForwardExec_eq]
  cases feedForward p input f <;> rfl

theorem verifyExec_state (inputs : List (List α)) (cls : List α) (f : α → α)
    (p : perceptron α) : (verifyExec inputs cls f p).state = p := by
  rw [verifyExec_eq]
  cases verify p inputs cls f <;> rfl

omit [LinearOrderedField α] in
theorem toExec_state {β : Type} (o : Outcome (perceptron α) β) : o.toExec.state = o.state := by
  cases o <;> rfl

theorem runCall_state_length (c : Call α) (p : perceptron α) :
    (runCall c p).state.weights.length = p.weights.length := by
  cases c with
  | feedForward input f =>
    simp only [runCall, toExec_state, feedForwardExec_state]
  | backPropagate input delta rate => exact backPropagate_state_length p input delta rate
  | learn f inputs cls rate => exact learnLoop_state_length f cls rate inputs 0 p
  | verify inputs cls f =>
    simp only [runCall, toExec_state, verifyExec_state]

theorem runCalls_state_length :
    ∀ (calls : List (Call α)) (p : perceptron α),
      (runCalls calls p).state.weights.length = p.weights.length := by
  intro calls
  induction calls with
  | nil => intro p; rfl
  | cons c rest ih =>
    intro p
    have hc := runCall_state_length c p
    simp only [runCalls]
    cases hq : runCall c p with
    | returned q =>
      rw [hq] at hc
      show (runCalls rest q).state.weights.length = p.weights.length
      rw [ih]
      exact hc
    | panicked q =>
      rw [hq] at hc
      exact hc

theorem runCall_readOnly_state (c : Call α) (p : perceptron α) (h : c.readOnly = true) :
    (runCall c p).state = p := by
  cases c with
  | feedForward input f =>
    simp only [runCall, toExec_state, feedForwardExec_state]
  | verify inputs cls f =>
    simp only [runCall, toExec_state, verifyExec_state]
  | backPropagate input delta rate => simp [Call.readOnly] at h
  | learn f inputs cls rate => simp [Call.readOnly] at h

theorem runCalls_readOnly_state :
    ∀ (calls : List (Call α)) (p : perceptron α), (∀ c ∈ calls, c.readOnly = true) →
      (runCalls calls p).state = p := by
  intro calls
  induction calls with
  | nil => intro p _; rfl
  | cons c rest ih =>
    intro p h
    have hc := runCall_readOnly_state c p (h c (List.mem_cons_self _ _))
    simp only [runCalls]
    cases hq : runCall c p with
    | returned q =>
      rw [hq] at hc
      dsimp only
      rw [ih q (fun c hc => h c (List.mem_cons_of_mem _ hc))]
      exact hc
    | panicked q =>
      rw [hq] at hc
      exact hc

omit [LinearOrderedField α] in
theorem stringLoop_eq (fmt02 : α → String) :
    ∀ (ws : List α) (a : List String), stringLoop fmt02 ws a = a ++ ws.map fmt02 := by
  intro ws
  induction ws with
  | nil => intro a; simp [stringLoop]
  | cons w ws ih => intro a; simp [stringLoop, ih]

theorem stringsJoinLoop_eq (sep : String) :
    ∀ (a : List String) (b : String),
      stringsJoinLoop sep a b = String.intercalate.go b sep a := by
  intro a
  induction a with
  | nil => intro b; rfl
  | cons s rest ih => intro b; simp [stringsJoinLoop, String.intercalate.go, ih]

theorem stringsJoin_eq (a : List String) (sep : String) :
    stringsJoin a sep = sep.intercalate a := by
  cases a with
  | nil => rfl
  | cons s rest => simp [stringsJoin, String.intercalate, stringsJoinLoop_eq]

omit [LinearOrderedField α] in
theorem perceptron_String_eq (fmt02 : α → String) (p : perceptron α) :
    p.String fmt02
      = "[" ++ ", ".intercalate (p.weights.map fmt02) ++ "], " ++ fmt02 p.bias := by
  simp [perceptron.String, stringLoop_eq, stringsJoin_eq]

theorem zipWith_add_zero_mul (rate : α) :
    ∀ (ws xs : List α), xs.length = ws.length →
      List.zipWith (fun w x => w + rate * 0 * x) ws xs = ws := by
  intro ws
  induction ws with
  | nil => intro xs _; simp
  | cons w ws ih =>
    intro xs h
    cases xs with
    | nil => simp at h
    | cons x xs =>
      rw [List.zipWith_cons_cons, ih xs (by simpa using h)]
      simp

theorem specUpdate_zero (p : perceptron α) (x : List α) (rate : α)
    (h : x.length = p.weights.length) : specUpdate p x 0 rate = p := by
  obtain ⟨ws, b⟩ := p
  show (⟨List.zipWith (fun w x => w + rate * 0 * x) ws x, b + rate * 0⟩ : perceptron α)
    = ⟨ws, b⟩
  rw [zipWith_add_zero_mul rate ws x h, mul_zero, add_zero]

theorem specLearn_of_all_correct (f : α → α) (rate : α) :
    ∀ (data : List (List α × α)) (p : perceptron α),
      (∀ s ∈ data, s.1.length = p.weights.length) →
      (∀ s ∈ data, specForward p s.1 f = s.2) →
      specLearn f rate p data = p := by
  intro data
  induction data with
  | nil => intro p _ _; rfl
  | cons s data ih =>
    intro p hdim hall
    have hs : specLearnStep f rate p s = p := by
      rw [specLearnStep, hall s (List.mem_cons_self _ _), sub_self,
        specUpdate_zero p s.1 rate (hdim s (List.mem_cons_self _ _))]
    have := ih p (fun t ht => hdim t (List.mem_cons_of_mem _ ht))
      (fun t ht => hall t (List.mem_cons_of_mem _ ht))
    simpa [specLearn, hs] using this

theorem learn_of_all_correct (p : perceptron α) (f : α → α) (rate : α)
    (inputs : List (List α)) (cls : List α) (hlen : inputs.length = cls.length)
    (hdim : ∀ x ∈ inputs, x.length = p.weights.length)
    (hall : ∀ s ∈ inputs.zip cls, feedForward p s.1 f = some s.2) :
    learn p f inputs cls rate = Exec.returned p := by
  rw [learn_of_wellFormed p f rate inputs cls hlen hdim, specLearn_of_all_correct]
  · intro s hs
    exact hdim s.1 (List.of_mem_zip hs).1
  · intro s hs
    have h1 := hall s hs
    rw [feedForward_of_le p s.1 f (le_of_eq (hdim s.1 (List.of_mem_zip hs).1))] at h1
    exact Option.some.inj h1

theorem all_correct_of_verify_one (p : perceptron α) (f : α → α)
    (inputs : List (List α)) (cls : List α) (hlen : inputs.length = cls.length)
    (hdim : ∀ x ∈ inputs, x.length = p.weights.length)
    (hv : verify p inputs cls f = some (Quo.num 1)) :
    ∀ s ∈ inputs.zip cls, feedForward p s.1 f = some s.2 := by
  rw [verify_eq_of_wellFormed p f inputs cls hlen hdim] at hv
  have hv2 := Option.some.inj hv
  have hzip : (inputs.zip cls).length = inputs.length := by simp [hlen]
  by_cases hn : (inputs.length : α) = 0
  · rw [fdiv, if_pos hn] at hv2
    split_ifs at hv2
  · rw [fdiv, if_neg hn] at hv2
    have h1 := Quo.num.inj hv2
    rw [div_eq_one_iff_eq hn] at h1
    have h2 : (inputs.zip cls).countP (fun s => decide (feedForward p s.1 f = some s.2))
        = (inputs.zip cls).length := by
      rw [hzip]
      exact_mod_cast h1
    rw [List.countP_eq_length] at h2
    intro s hs
    simpa using h2 s hs

theorem learn_append_of_wellFormed (p : perceptron α) (f : α → α) (rate : α)
    (in1 : List (List α)) (cls1 : List α) (in2 : List (List α)) (cls2 : List α)
    (h1 : in1.length = cls1.length) (h2 : in2.length = cls2.length)
    (hd1 : ∀ x ∈ in1, x.length = p.weights.length)
    (hd2 : ∀ x ∈ in2, x.length = p.weights.length) :
    ∃ q, learn p f in1 cls1 rate = Exec.returned q ∧
      q.weights.length = p.weights.length ∧
      learn p f (in1 ++ in2) (cls1 ++ cls2) rate = learn q f in2 cls2 rate := by
  have e1 := learn_of_wellFormed p f rate in1 cls1 h1 hd1
  have hq : (specLearn f rate p (in1.zip cls1)).weights.length = p.weights.length := by
    have := learnLoop_state_length f cls1 rate in1 0 p
    rw [show learnLoop f cls1 rate in1 0 p = learn p f in1 cls1 rate from rfl, e1] at this
    exact this
  refine ⟨_, e1, hq, ?_⟩
  rw [learn_of_wellFormed p f rate (in1 ++ in2) (cls1 ++ cls2) (by simp [h1, h2])
      (by
        intro x hx
        rcases List.mem_append.mp hx with hx | hx
        · exact hd1 x hx
        · exact hd2 x hx),
    learn_of_wellFormed _ f rate in2 cls2 h2 (by intro x hx; rw [hq]; exact hd2 x hx),
    List.zip_append h1]
  simp [specLearn]

theorem learnPasses_eq_learn_replicate (f : α → α) (rate : α) (inputs : List (List α))
    (cls : List α) (hlen : inputs.length = cls.length) :
    ∀ (k : Nat) (p : perceptron α), (∀ x ∈ inputs, x.length = p.weights.length) →
      learnPasses f inputs cls rate k p
        = learn p f (List.replicate k inputs).flatten (List.replicate k cls).flatten rate := by
  intro k
  induction k with
  | zero => intro p _; rfl
  | succ k ih =>
    intro p hdim
    have hl : (List.replicate k inputs).flatten.length
        = (List.replicate k cls).flatten.length := by
      simp [hlen]
    have hd : ∀ x ∈ (List.replicate k inputs).flatten, x.length = p.weights.length := by
      intro x hx
      simp only [List.mem_flatten, List.mem_replicate] at hx
      obtain ⟨l, ⟨_, rfl⟩, hxl⟩ := hx
      exact hdim x hxl
    obtain ⟨q, hq, hqlen, happ⟩ := learn_append_of_wellFormed p f rate inputs cls
      (List.replicate k inputs).flatten (List.replicate k cls).flatten hlen hl hdim hd
    simp only [learnPasses, hq, List.replicate_succ, List.flatten_cons, happ]
    exact ih q (fun x hx => by rw [hqlen]; exact hdim x hx)

/-! ## Lemmas on `float64` rounding -/

theorem roundHalfEven_floor_le (q : ℚ) : ⌊q⌋ ≤ roundHalfEven q := by
  unfold roundHalfEven
  split_ifs <;> omega

theorem roundHalfEven_le_floor_succ (q : ℚ) : roundHalfEven q ≤ ⌊q⌋ + 1 := by
  unfold roundHalfEven
  split_ifs <;> omega

theorem roundHalfEven_mono {q r : ℚ} (h : q ≤ r) : roundHalfEven q ≤ roundHalfEven r := by
  have hf : ⌊q⌋ ≤ ⌊r⌋ := Int.floor_mono h
  rcases lt_or_eq_of_le hf with hlt | heq
  · calc roundHalfEven q ≤ ⌊q⌋ + 1 := roundHalfEven_le_floor_succ q
      _ ≤ ⌊r⌋ := hlt
      _ ≤ roundHalfEven r := roundHalfEven_floor_le r
  · have hd : q - ⌊q⌋ ≤ r - ⌊r⌋ := by rw [heq]; linarith
    unfold roundHalfEven
    rw [heq] at hd ⊢
    split_ifs <;> first | omega | (exfalso; linarith)

theorem roundHalfEven_intCast (n : ℤ) : roundHalfEven (n : ℚ) = n := by
  unfold roundHalfEven
  simp

theorem roundHalfEven_of_near (q : ℚ) (n : ℤ) (h1 : (n : ℚ) - 1 / 2 < q)
    (h2 : q < (n : ℚ) + 1 / 2) : roundHalfEven q = n := by
  by_cases hq : (n : ℚ) ≤ q
  · have hf : ⌊q⌋ = n := Int.floor_eq_iff.mpr ⟨hq, by linarith⟩
    unfold roundHalfEven
    rw [hf, if_pos (by linarith)]
  · have hf : ⌊q⌋ = n - 1 := Int.floor_eq_iff.mpr ⟨by push_cast; linarith, by push_cast; linarith⟩
    unfold roundHalfEven
    rw [hf, if_neg (by push_cast; linarith), if_pos (by push_cast; linarith)]
    omega

theorem two_zpow_succ (e : ℤ) :
    (2 : ℚ) ^ (e + 1) = (((2 : ℤ) ^ 53 : ℤ) : ℚ) * (2 : ℚ) ^ (e - 52) := by
  have h : (((2 : ℤ) ^ 53 : ℤ) : ℚ) = (2 : ℚ) ^ (53 : ℤ) := by norm_num
  rw [h, ← zpow_add₀ (by norm_num : (2 : ℚ) ≠ 0)]
  congr 1
  ring

theorem two_zpow_self (e : ℤ) :
    (2 : ℚ) ^ e = (((2 : ℤ) ^ 52 : ℤ) : ℚ) * (2 : ℚ) ^ (e - 52) := by
  have h : (((2 : ℤ) ^ 52 : ℤ) : ℚ) = (2 : ℚ) ^ (52 : ℤ) := by norm_num
  rw [h, ← zpow_add₀ (by norm_num : (2 : ℚ) ≠ 0)]
  congr 1
  ring

theorem ulp_pos (a : ℚ) : 0 < ulp a := by
  unfold ulp
  positivity

theorem roundMag_nonneg {a : ℚ} (ha : 0 ≤ a) : 0 ≤ roundMag a := by
  unfold roundMag
  have h0 : (0 : ℤ) ≤ roundHalfEven (a / ulp a) := by
    have := roundHalfEven_mono (div_nonneg ha (le_of_lt (ulp_pos a)))
    rwa [show ((0 : ℚ)) = ((0 : ℤ) : ℚ) by norm_num, roundHalfEven_intCast] at this
  have : (0 : ℚ) ≤ (roundHalfEven (a / ulp a) : ℚ) := by exact_mod_cast h0
  exact mul_nonneg this (le_of_lt (ulp_pos a))

/-- The exponent of the binade of a positive number, clamped at the subnormals. -/
theorem binade_le {a b : ℚ} (ha : 0 < a) (h : a ≤ b) :
    max (Int.log 2 a) (-1022) ≤ max (Int.log 2 b) (-1022) :=
  max_le_max (Int.log_mono_right ha h) (le_refl _)

theorem roundMag_le_zpow (a : ℚ) :
    roundMag a ≤ (2 : ℚ) ^ (max (Int.log 2 a) (-1022) + 1) := by
  have hu := ulp_pos a
  have hlt : a < (2 : ℚ) ^ (Int.log 2 a + 1) := by
    have := Int.lt_zpow_succ_log_self (b := 2) (by norm_num) a
    exact_mod_cast this
  have hle : a ≤ (2 : ℚ) ^ (max (Int.log 2 a) (-1022) + 1) :=
    le_trans (le_of_lt hlt) (zpow_le_zpow_right₀ (by norm_num) (by
      have := le_max_left (Int.log 2 a) (-1022); omega))
  have hq : a / ulp a ≤ (((2 : ℤ) ^ 53 : ℤ) : ℚ) := by
    rw [div_le_iff₀ hu]
    calc a ≤ (2 : ℚ) ^ (max (Int.log 2 a) (-1022) + 1) := hle
      _ = (((2 : ℤ) ^ 53 : ℤ) : ℚ) * ulp a := by
        unfold ulp
        exact two_zpow_succ _
  have hr := roundHalfEven_mono hq
  rw [roundHalfEven_intCast] at hr
  have hr' : (roundHalfEven (a / ulp a) : ℚ) ≤ (((2 : ℤ) ^ 53 : ℤ) : ℚ) := by exact_mod_cast hr
  calc roundMag a = roundHalfEven (a / ulp a) * ulp a := rfl
    _ ≤ (((2 : ℤ) ^ 53 : ℤ) : ℚ) * ulp a := mul_le_mul_of_nonneg_right hr' (le_of_lt hu)
    _ = (2 : ℚ) ^ (max (Int.log 2 a) (-1022) + 1) := by
        unfold ulp
        exact (two_zpow_succ _).symm

theorem zpow_le_roundMag {a : ℚ} (ha : 0 < a) (hlog : -1022 ≤ Int.log 2 a) :
    (2 : ℚ) ^ (Int.log 2 a) ≤ roundMag a := by
  have hu := ulp_pos a
  have hmax : max (Int.log 2 a) (-1022) = Int.log 2 a := max_eq_left hlog
  have hle : (2 : ℚ) ^ (Int.log 2 a) ≤ a := by
    have := Int.zpow_log_le_self (b := 2) (by norm_num) ha
    exact_mod_cast this
  have hgrid : (2 : ℚ) ^ (Int.log 2 a) = (((2 : ℤ) ^ 52 : ℤ) : ℚ) * ulp a := by
    unfold ulp
    rw [hmax]
    exact two_zpow_self _
  have hq : (((2 : ℤ) ^ 52 : ℤ) : ℚ) ≤ a / ulp a := by
    rw [le_div_iff₀ hu, ← hgrid]
    exact hle
  have hr := roundHalfEven_mono hq
  rw [roundHalfEven_intCast] at hr
  have hr' : (((2 : ℤ) ^ 52 : ℤ) : ℚ) ≤ (roundHalfEven (a / ulp a) : ℚ) := by exact_mod_cast hr
  calc (2 : ℚ) ^ (Int.log 2 a) = (((2 : ℤ) ^ 52 : ℤ) : ℚ) * ulp a := hgrid
    _ ≤ roundHalfEven (a / ulp a) * ulp a := mul_le_mul_of_nonneg_right hr' (le_of_lt hu)

theorem roundMag_mono {a b : ℚ} (ha : 0 ≤ a) (h : a ≤ b) : roundMag a ≤ roundMag b := by
  rcases eq_or_lt_of_le ha with h0 | hpos
  · subst h0
    have : roundMag 0 = 0 := by simp [roundMag, roundHalfEven]
    rw [this]
    exact roundMag_nonneg h
  · have hb : 0 < b := lt_of_lt_of_le hpos h
    have he := binade_le hpos h
    rcases eq_or_lt_of_le he with heq | hlt
    · have hu : ulp a = ulp b := by unfold ulp; rw [heq]
      unfold roundMag
      rw [hu]
      have hq : a / ulp b ≤ b / ulp b := div_le_div_of_nonneg_right h (le_of_lt (ulp_pos b))
      have := roundHalfEven_mono hq
      exact mul_le_mul_of_nonneg_right (by exact_mod_cast this) (le_of_lt (ulp_pos b))
    · have hlogb : -1022 ≤ Int.log 2 b := by
        by_contra hcon
        have h1 : max (Int.log 2 b) (-1022) = -1022 := max_eq_right (by omega)
        have h2 := le_max_right (Int.log 2 a) (-1022)
        omega
      have hmaxb : max (Int.log 2 b) (-1022) = Int.log 2 b := max_eq_left hlogb
      calc roundMag a ≤ (2 : ℚ) ^ (max (Int.log 2 a) (-1022) + 1) := roundMag_le_zpow a
        _ ≤ (2 : ℚ) ^ (Int.log 2 b) := zpow_le_zpow_right₀ (by norm_num) (by omega)
        _ ≤ roundMag b := zpow_le_roundMag hb hlogb

theorem roundToGrid_mono {x y : ℚ} (h : x ≤ y) : roundToGrid x ≤ roundToGrid y := by
  unfold roundToGrid
  by_cases hx : 0 ≤ x
  · rw [if_pos hx, if_pos (le_trans hx h)]
    exact roundMag_mono hx h
  · rw [if_neg hx]
    by_cases hy : 0 ≤ y
    · rw [if_pos hy]
      have h1 := roundMag_nonneg (a := -x) (by linarith)
      have h2 := roundMag_nonneg hy
      linarith
    · rw [if_neg hy]
      have := roundMag_mono (a := -y) (b := -x) (by linarith) (by linarith)
      linarith

theorem roundToGrid_zero : roundToGrid 0 = 0 := by
  simp [roundToGrid, roundMag, roundHalfEven]

theorem roundToGrid_nonneg {x : ℚ} (hx : 0 ≤ x) : 0 ≤ roundToGrid x := by
  have := roundToGrid_mono hx
  rwa [roundToGrid_zero] at this

theorem round_zero : F64.round 0 = F64.fin 0 := by
  have h1 : ¬ ((2 : ℚ) ^ 1024 ≤ 0) := not_le.mpr (by positivity)
  have h2 : ¬ ((0 : ℚ) ≤ -(2 : ℚ) ^ 1024) := by
    have : (0 : ℚ) < (2 : ℚ) ^ 1024 := by positivity
    intro h
    linarith
  simp only [F64.round, roundToGrid_zero, if_neg h1, if_neg h2]

theorem round_mono {x y : ℚ} (h : x ≤ y) : (F64.round x).le (F64.round y) = true := by
  have hm := roundToGrid_mono h
  have hp : (0 : ℚ) < (2 : ℚ) ^ 1024 := by positivity
  unfold F64.round
  split_ifs <;> simp only [F64.le, decide_eq_true_eq] <;> first | rfl | linarith

theorem round_nonneg {x : ℚ} (hx : 0 ≤ x) : (F64.round x).nonneg = true := by
  have hm := roundToGrid_nonneg hx
  have hp : (0 : ℚ) < (2 : ℚ) ^ 1024 := by positivity
  unfold F64.round
  split_ifs <;> simp only [F64.nonneg, decide_eq_true_eq] <;> first | rfl | linarith

theorem round_ne_nan (x : ℚ) : F64.round x ≠ F64.nan := by
  unfold F64.round
  split_ifs <;> simp

theorem le_posInf {v : F64} (h : v ≠ F64.nan) : v.le F64.posInf = true := by
  cases v <;> simp_all [F64.le]

theorem le_refl_of_nonneg {v : F64} (h : v.nonneg = true) : v.le v = true := by
  cases v <;> simp_all [F64.le, F64.nonneg]

theorem div_one_fin (q : ℚ) :
    F64.div (F64.fin 1) (F64.fin q) = if q = 0 then F64.posInf else F64.round (1 / q) := by
  simp [F64.div]

theorem div_one_nonneg {v : F64} (h : v.nonneg = true) :
    (F64.div (F64.fin 1) v).nonneg = true := by
  cases v with
  | fin a =>
    simp only [F64.nonneg, decide_eq_true_eq] at h
    rw [div_one_fin]
    split_ifs
    · rfl
    · exact round_nonneg (div_nonneg zero_le_one h)
  | posInf => simp [F64.div, F64.nonneg]
  | negInf => simp [F64.nonneg] at h
  | nan => simp [F64.nonneg] at h

theorem div_one_ne_nan {v : F64} (h : v.nonneg = true) : F64.div (F64.fin 1) v ≠ F64.nan := by
  intro hn
  have := div_one_nonneg h
  rw [hn] at this
  simp [F64.nonneg] at this

theorem div_one_antitone {a b : F64} (ha : a.nonneg = true) (h : a.le b = true) :
    (F64.div (F64.fin 1) b).le (F64.div (F64.fin 1) a) = true := by
  cases a with
  | negInf => simp [F64.nonneg] at ha
  | nan => simp [F64.nonneg] at ha
  | posInf =>
    cases b <;> simp_all [F64.le, F64.div]
  | fin qa =>
    have ha' : 0 ≤ qa := by simpa [F64.nonneg] using ha
    cases b with
    | nan => simp [F64.le] at h
    | negInf => simp [F64.le] at h
    | posInf =>
      have hb : F64.div (F64.fin 1) F64.posInf = F64.fin 0 := rfl
      rw [hb, div_one_fin]
      split_ifs
      · rfl
      · have := round_mono (div_nonneg zero_le_one ha' : (0 : ℚ) ≤ 1 / qa)
        rwa [round_zero] at this
    | fin qb =>
      have hab : qa ≤ qb := by simpa [F64.le] using h
      by_cases ha0 : qa = 0
      · rw [div_one_fin qa, if_pos ha0]
        exact le_posInf (div_one_ne_nan (by simpa [F64.nonneg] using le_trans ha' hab))
      · have hapos : 0 < qa := lt_of_le_of_ne ha' (Ne.symm ha0)
        have hbpos : 0 < qb := lt_of_lt_of_le hapos hab
        rw [div_one_fin, div_one_fin, if_neg ha0, if_neg (ne_of_gt hbpos)]
        exact round_mono (one_div_le_one_div_of_le hapos hab)

theorem add_one_nonneg {v : F64} (h : v.nonneg = true) :
    (F64.add (F64.fin 1) v).nonneg = true := by
  cases v with
  | fin a =>
    simp only [F64.nonneg, decide_eq_true_eq] at h
    exact round_nonneg (by linarith)
  | posInf => rfl
  | negInf => simp [F64.nonneg] at h
  | nan => simp [F64.nonneg] at h

theorem add_one_mono {a b : F64} (ha : a.nonneg = true) (h : a.le b = true) :
    (F64.add (F64.fin 1) a).le (F64.add (F64.fin 1) b) = true := by
  cases a with
  | negInf => simp [F64.nonneg] at ha
  | nan => simp [F64.nonneg] at ha
  | posInf => cases b <;> simp_all [F64.le, F64.add]
  | fin qa =>
    cases b with
    | nan => simp [F64.le] at h
    | negInf => simp [F64.le] at h
    | posInf => exact le_posInf (round_ne_nan _)
    | fin qb =>
      simp only [F64.le, decide_eq_true_eq] at h
      exact round_mono (by linarith)

theorem nonneg_of_le {a b : F64} (ha : a.nonneg = true) (h : a.le b = true) :
    b.nonneg = true := by
  cases a <;> cases b <;> simp_all [F64.le, F64.nonneg]
  linarith

theorem sigmoid_le_of_exp_le (exp : F64 → F64) (x y : F64)
    (hx : (exp x).nonneg = true) (h : (exp x).le (exp y) = true) :
    (sigmoid exp x).le (sigmoid exp y) = true := by
  have hy : (exp y).nonneg = true := nonneg_of_le hx h
  have h1 := div_one_antitone hx h
  have h2 := add_one_mono (div_one_nonneg hy) h1
  exact div_one_antitone (add_one_nonneg (div_one_nonneg hy)) h2

theorem log_eq_of_bracket (x : ℚ) (e : ℤ) (hx : 0 < x) (h1 : (2 : ℚ) ^ e ≤ x)
    (h2 : x < (2 : ℚ) ^ (e + 1)) : Int.log 2 x = e := by
  have ha : e ≤ Int.log 2 x :=
    (Int.zpow_le_iff_le_log (b := 2) (by norm_num) hx).mp (by exact_mod_cast h1)
  have hb : Int.log 2 x < e + 1 :=
    (Int.lt_zpow_iff_log_lt (b := 2) (by norm_num) hx).mp (by exact_mod_cast h2)
  omega

theorem roundToGrid_eval (x : ℚ) (e n : ℤ) (hx : 0 < x) (he : -1022 ≤ e)
    (h1 : (2 : ℚ) ^ e ≤ x) (h2 : x < (2 : ℚ) ^ (e + 1))
    (h3 : (n : ℚ) - 1 / 2 < x / (2 : ℚ) ^ (e - 52))
    (h4 : x / (2 : ℚ) ^ (e - 52) < (n : ℚ) + 1 / 2) :
    roundToGrid x = n * (2 : ℚ) ^ (e - 52) := by
  have hlog := log_eq_of_bracket x e hx h1 h2
  have hu : ulp x = (2 : ℚ) ^ (e - 52) := by
    unfold ulp
    rw [hlog, max_eq_left he]
  unfold roundToGrid roundMag
  rw [if_pos (le_of_lt hx), hu, roundHalfEven_of_near _ n h3 h4]

theorem round_eval (x : ℚ) (e n : ℤ) (hx : 0 < x) (he : -1022 ≤ e)
    (h1 : (2 : ℚ) ^ e ≤ x) (h2 : x < (2 : ℚ) ^ (e + 1))
    (h3 : (n : ℚ) - 1 / 2 < x / (2 : ℚ) ^ (e - 52))
    (h4 : x / (2 : ℚ) ^ (e - 52) < (n : ℚ) + 1 / 2)
    (h5 : (n : ℚ) * (2 : ℚ) ^ (e - 52) < (2 : ℚ) ^ 1024) :
    F64.round x = F64.fin (n * (2 : ℚ) ^ (e - 52)) := by
  have hg := roundToGrid_eval x e n hx he h1 h2 h3 h4
  have h0 := roundToGrid_nonneg (le_of_lt hx)
  have hp : (0 : ℚ) < (2 : ℚ) ^ 1024 := by positivity
  unfold F64.round
  rw [if_neg (by rw [hg]; exact not_le.mpr h5), if_neg (by intro h; linarith), hg]

theorem round_eval_overflow (x : ℚ) (e n : ℤ) (hx : 0 < x) (he : -1022 ≤ e)
    (h1 : (2 : ℚ) ^ e ≤ x) (h2 : x < (2 : ℚ) ^ (e + 1))
    (h3 : (n : ℚ) - 1 / 2 < x / (2 : ℚ) ^ (e - 52))
    (h4 : x / (2 : ℚ) ^ (e - 52) < (n : ℚ) + 1 / 2)
    (h5 : (2 : ℚ) ^ 1024 ≤ (n : ℚ) * (2 : ℚ) ^ (e - 52)) :
    F64.round x = F64.posInf := by
  have hg := roundToGrid_eval x e n hx he h1 h2 h3 h4
  unfold F64.round
  rw [if_pos (by rw [hg]; exact h5)]

theorem round_one : F64.round 1 = F64.fin 1 := by
  have := round_eval 1 0 (2 ^ 52) (by norm_num) (by norm_num) (by norm_num) (by norm_num)
    (by norm_num) (by norm_num) (by norm_num)
  rw [this]
  norm_num

theorem round_absorb : F64.round (2 ^ 60 + 1) = F64.fin (2 ^ 60) := by
  have := round_eval (2 ^ 60 + 1) 60 (2 ^ 52) (by norm_num) (by norm_num) (by norm_num)
    (by norm_num) (by norm_num) (by norm_num) (by norm_num)
  rw [this]
  norm_num

theorem round_inv_e37 :
    F64.round (1 / 11719142372802612) = F64.fin (6922830684512341 * (2 : ℚ) ^ (-106 : ℤ)) := by
  have := round_eval (1 / 11719142372802612) (-54) 6922830684512341 (by norm_num) (by norm_num)
    (by norm_num) (by norm_num) (by norm_num) (by norm_num) (by norm_num)
  rw [this]
  norm_num

theorem round_one_add_t37 :
    F64.round (1 + 6922830684512341 * (2 : ℚ) ^ (-106 : ℤ)) = F64.fin 1 := by
  have := round_eval (1 + 6922830684512341 * (2 : ℚ) ^ (-106 : ℤ)) 0 (2 ^ 52) (by norm_num)
    (by norm_num) (by norm_num) (by norm_num) (by norm_num) (by norm_num) (by norm_num)
  rw [this]
  norm_num

theorem round_inv_em710 :
    F64.round (1 / (906010418525123 * (2 : ℚ) ^ (-1074 : ℤ))) = F64.posInf :=
  round_eval_overflow _ 1024 5596627033458682 (by norm_num) (by norm_num)
    (by norm_num) (by norm_num) (by norm_num) (by norm_num) (by norm_num)

theorem round_two : F64.round 2 = F64.fin 2 := by
  have := round_eval 2 1 (2 ^ 52) (by norm_num) (by norm_num) (by norm_num) (by norm_num)
    (by norm_num) (by norm_num) (by norm_num)
  rw [this]
  norm_num

theorem round_half : F64.round (1 / 2) = F64.fin (1 / 2) := by
  have := round_eval (1 / 2) (-1) (2 ^ 52) (by norm_num) (by norm_num) (by norm_num)
    (by norm_num) (by norm_num) (by norm_num) (by norm_num)
  rw [this]
  norm_num

theorem round_two_pow_60 : F64.round (2 ^ 60) = F64.fin (2 ^ 60) := by
  have := round_eval (2 ^ 60) 60 (2 ^ 52) (by norm_num) (by norm_num) (by norm_num)
    (by norm_num) (by norm_num) (by norm_num) (by norm_num)
  rw [this]
  norm_num

theorem round_inv_e36 :
    F64.round (1 / 4311231547115195) = F64.fin (4704551212802148 * (2 : ℚ) ^ (-104 : ℤ)) := by
  have := round_eval (1 / 4311231547115195) (-52) 4704551212802148 (by norm_num) (by norm_num)
    (by norm_num) (by norm_num) (by norm_num) (by norm_num) (by norm_num)
  rw [this]
  norm_num

theorem round_one_add_t36 :
    F64.round (1 + 4704551212802148 * (2 : ℚ) ^ (-104 : ℤ))
      = F64.fin (1 + (2 : ℚ) ^ (-52 : ℤ)) := by
  have := round_eval (1 + 4704551212802148 * (2 : ℚ) ^ (-104 : ℤ)) 0 (2 ^ 52 + 1) (by norm_num)
    (by norm_num) (by norm_num) (by norm_num) (by norm_num) (by norm_num) (by norm_num)
  rw [this]
  norm_num

theorem round_inv_e3625 :
    F64.round (1 / 5535730883721925) = F64.fin (7327816337059680 * (2 : ℚ) ^ (-105 : ℤ)) := by
  have := round_eval (1 / 5535730883721925) (-53) 7327816337059680 (by norm_num) (by norm_num)
    (by norm_num) (by norm_num) (by norm_num) (by norm_num) (by norm_num)
  rw [this]
  norm_num

theorem round_one_add_t3625 :
    F64.round (1 + 7327816337059680 * (2 : ℚ) ^ (-105 : ℤ))
      = F64.fin (1 + (2 : ℚ) ^ (-52 : ℤ)) := by
  have := round_eval (1 + 7327816337059680 * (2 : ℚ) ^ (-105 : ℤ)) 0 (2 ^ 52 + 1) (by norm_num)
    (by norm_num) (by norm_num) (by norm_num) (by norm_num) (by norm_num) (by norm_num)
  rw [this]
  norm_num

theorem round_inv_one_add_eps :
    F64.round (1 / (1 + (2 : ℚ) ^ (-52 : ℤ))) = F64.fin (1 - (2 : ℚ) ^ (-52 : ℤ)) := by
  have := round_eval (1 / (1 + (2 : ℚ) ^ (-52 : ℤ))) (-1) (2 ^ 53 - 2) (by norm_num)
    (by norm_num) (by norm_num) (by norm_num) (by norm_num) (by norm_num) (by norm_num)
  rw [this]
  norm_num

theorem sigmoid_expSamples_36 :
    sigmoid expSamples (F64.fin 36) = F64.fin (1 - (2 : ℚ) ^ (-52 : ℤ)) := by
  have he : expSamples (F64.fin 36) = F64.fin 4311231547115195 := by
    norm_num [expSamples]
  have h1 : F64.div (F64.fin 1) (F64.fin 4311231547115195)
      = F64.fin (4704551212802148 * (2 : ℚ) ^ (-104 : ℤ)) := by
    rw [div_one_fin, if_neg (by norm_num), round_inv_e36]
  have h2 : F64.add (F64.fin 1) (F64.fin (4704551212802148 * (2 : ℚ) ^ (-104 : ℤ)))
      = F64.fin (1 + (2 : ℚ) ^ (-52 : ℤ)) := round_one_add_t36
  have h3 : F64.div (F64.fin 1) (F64.fin (1 + (2 : ℚ) ^ (-52 : ℤ)))
      = F64.fin (1 - (2 : ℚ) ^ (-52 : ℤ)) := by
    rw [div_one_fin, if_neg (by norm_num), round_inv_one_add_eps]
  rw [sigmoid, he, h1, h2, h3]

theorem sigmoid_expSamples_3625 :
    sigmoid expSamples (F64.fin (145 / 4)) = F64.fin (1 - (2 : ℚ) ^ (-52 : ℤ)) := by
  have he : expSamples (F64.fin (145 / 4)) = F64.fin 5535730883721925 := by
    norm_num [expSamples]
  have h1 : F64.div (F64.fin 1) (F64.fin 5535730883721925)
      = F64.fin (7327816337059680 * (2 : ℚ) ^ (-105 : ℤ)) := by
    rw [div_one_fin, if_neg (by norm_num), round_inv_e3625]
  have h2 : F64.add (F64.fin 1) (F64.fin (7327816337059680 * (2 : ℚ) ^ (-105 : ℤ)))
      = F64.fin (1 + (2 : ℚ) ^ (-52 : ℤ)) := round_one_add_t3625
  have h3 : F64.div (F64.fin 1) (F64.fin (1 + (2 : ℚ) ^ (-52 : ℤ)))
      = F64.fin (1 - (2 : ℚ) ^ (-52 : ℤ)) := by
    rw [div_one_fin, if_neg (by norm_num), round_inv_one_add_eps]
  rw [sigmoid, he, h1, h2, h3]

theorem sigmoid_expSamples_37 : sigmoid expSamples (F64.fin 37) = F64.fin 1 := by
  have he : expSamples (F64.fin 37) = F64.fin 11719142372802612 := by
    norm_num [expSamples]
  have h1 : F64.div (F64.fin 1) (F64.fin 11719142372802612)
      = F64.fin (6922830684512341 * (2 : ℚ) ^ (-106 : ℤ)) := by
    rw [div_one_fin, if_neg (by norm_num), round_inv_e37]
  have h2 : F64.add (F64.fin 1) (F64.fin (6922830684512341 * (2 : ℚ) ^ (-106 : ℤ)))
      = F64.fin 1 := round_one_add_t37
  have h3 : F64.div (F64.fin 1) (F64.fin 1) = F64.fin 1 := by
    rw [div_one_fin, if_neg (by norm_num), div_one, round_one]
  rw [sigmoid, he, h1, h2, h3]

theorem sigmoid_expSamples_neg710 : sigmoid expSamples (F64.fin (-710)) = F64.fin 0 := by
  have he : expSamples (F64.fin (-710))
      = F64.fin (906010418525123 * (2 : ℚ) ^ (-1074 : ℤ)) := by
    norm_num [expSamples]
  have h1 : F64.div (F64.fin 1) (F64.fin (906010418525123 * (2 : ℚ) ^ (-1074 : ℤ)))
      = F64.posInf := by
    rw [div_one_fin, if_neg (by norm_num), round_inv_em710]
  rw [sigmoid, he, h1]
  rfl

theorem sigmoid_expSamples_zero : sigmoid expSamples (F64.fin 0) = F64.fin (1 / 2) := by
  have he : expSamples (F64.fin 0) = F64.fin 1 := by
    norm_num [expSamples]
  have h1 : F64.div (F64.fin 1) (F64.fin 1) = F64.fin 1 := by
    rw [div_one_fin, if_neg (by norm_num), div_one, round_one]
  have h2 : F64.add (F64.fin 1) (F64.fin 1) = F64.fin 2 := by
    show F64.round (1 + 1) = F64.fin 2
    norm_num [round_two]
  have h3 : F64.div (F64.fin 1) (F64.fin 2) = F64.fin (1 / 2) := by
    rw [div_one_fin, if_neg (by norm_num), round_half]
  rw [sigmoid, he, h1, h2, h3]

theorem expSamples_nonneg (u : F64) (hu : u ≠ F64.nan) : (expSamples u).nonneg = true := by
  cases u with
  | nan => exact absurd rfl hu
  | negInf => simp [expSamples, F64.nonneg]
  | posInf => rfl
  | fin q =>
    simp only [expSamples]
    split_ifs <;> simp only [F64.nonneg, decide_eq_true_eq] <;> positivity

theorem expSamples_mono (u v : F64) (h : u.le v = true) :
    (expSamples u).le (expSamples v) = true := by
  cases u with
  | nan => simp [F64.le] at h
  | posInf => cases v <;> simp_all [F64.le, expSamples]
  | negInf =>
    cases v with
    | nan => simp [F64.le] at h
    | posInf => rfl
    | negInf => simp [expSamples, F64.le]
    | fin q =>
      have := expSamples_nonneg (F64.fin q) (by simp)
      cases hq : expSamples (F64.fin q) <;> simp_all [F64.le, F64.nonneg, expSamples]
  | fin p =>
    cases v with
    | nan => simp [F64.le] at h
    | negInf => simp [F64.le] at h
    | posInf =>
      simp only [expSamples]
      split_ifs <;> rfl
    | fin q =>
      have hpq : p ≤ q := by simpa [F64.le] using h
      simp only [expSamples]
      split_ifs <;> simp only [F64.le, decide_eq_true_eq] <;>
        first | (exfalso; linarith) | norm_num

theorem backPropagate64Loop_prefix (delta rate b : F64) (pre : List F64) :
    ∀ (input suf : List F64), input.length = suf.length →
      backPropagate64Loop delta rate input pre.length ⟨pre ++ suf, b⟩
        = Exec.returned ⟨pre ++ List.zipWith
            (fun w x => F64.add w (F64.mul (F64.mul rate delta) x)) suf input, b⟩ := by
  intro input
  induction input generalizing pre with
  | nil =>
    intro suf h
    have : suf = [] := List.length_eq_zero.mp h.symm
    subst this
    simp [backPropagate64Loop]
  | cons x rest ih =>
    intro suf h
    cases suf with
    | nil => simp at h
    | cons w suf =>
      have h2 := ih (pre ++ [F64.add w (F64.mul (F64.mul rate delta) x)]) suf
        (by simpa using h)
      simp only [List.length_append, List.length_singleton, List.append_assoc,
        List.singleton_append] at h2
      simp only [backPropagate64Loop, List.getElem?_append_right (le_refl _), Nat.sub_self,
        List.getElem?_cons_zero, List.set_append_right _ _ (le_refl _), List.set_cons_zero, h2,
        List.zipWith_cons_cons]

theorem backPropagate64_of_eq (p : perceptron F64) (input : List F64) (delta rate : F64)
    (h : input.length = p.weights.length) :
    backPropagate64 p input delta rate
      = Exec.returned ⟨List.zipWith
          (fun w x => F64.add w (F64.mul (F64.mul rate delta) x)) p.weights input,
          F64.add p.bias (F64.mul rate delta)⟩ := by
  have := backPropagate64Loop_prefix delta rate (F64.add p.bias (F64.mul rate delta)) []
    input p.weights h
  simpa [backPropagate64] using this

theorem mul_nonneg_of_positive {a b : F64} (ha : a.isPositive = true)
    (hb : b.isPositive = true) : (F64.mul a b).nonneg = true := by
  cases a <;> cases b <;> simp_all [F64.isPositive]
  exact round_nonneg (le_of_lt (mul_pos ha hb))

theorem mul_nonneg_of_nonneg_positive {c x : F64} (hc : c.nonneg = true)
    (hx : x.isPositive = true) : (F64.mul c x).nonneg = true := by
  cases x with
  | fin b =>
    have hb : 0 < b := by simpa [F64.isPositive] using hx
    cases c with
    | fin a =>
      have ha : 0 ≤ a := by simpa [F64.nonneg] using hc
      exact round_nonneg (mul_nonneg ha (le_of_lt hb))
    | posInf => simp [F64.mul, ne_of_gt hb, hb, F64.nonneg]
    | negInf => simp [F64.nonneg] at hc
    | nan => simp [F64.nonneg] at hc
  | posInf => simp [F64.isPositive] at hx
  | negInf => simp [F64.isPositive] at hx
  | nan => simp [F64.isPositive] at hx

theorem le_add_of_nonneg {w d : F64} (hw : w.isNumber = true) (hd : d.nonneg = true) :
    w.le (F64.add w d) = true := by
  cases w with
  | fin a =>
    have ha : F64.round a = F64.fin a := by simpa [F64.isNumber] using hw
    cases d with
    | fin c =>
      have hc : 0 ≤ c := by simpa [F64.nonneg] using hd
      have := round_mono (show a ≤ a + c by linarith)
      rwa [ha] at this
    | posInf => rfl
    | negInf => simp [F64.nonneg] at hd
    | nan => simp [F64.nonneg] at hd
  | posInf => simp [F64.isNumber] at hw
  | negInf => simp [F64.isNumber] at hw
  | nan => simp [F64.isNumber] at hw

/-! ## The claims, continued -/

/-- C11 (counterexample): `newPerceptron(1<<62)` returns no perceptron at all,
so it has no weight vector of length `1<<62`: `make` panics on the capacity. -/
theorem newPerceptron_huge_panics :
    (0 : Int) ≤ 2 ^ 62 ∧ newPerceptron (2 ^ 62) (fun _ => (1 / 4 : ℚ)) = none := by
  constructor
  · norm_num
  · norm_num [newPerceptron, maxAlloc]

/-- C11 (amended): for every `d >= 0` whose `8*d` bytes do not exceed
`maxAlloc`, `newPerceptron(d)` returns a perceptron with exactly `d` weights,
and after any sequence of `feedForward`, `backPropagate`, `learn` and `verify`
calls whose input vectors have length `d` the weight vector still has length
`d`; for a larger `d`, `newPerceptron(d)` panics and returns no perceptron. -/
theorem weights_length_invariant (d : Int) (hd : 0 ≤ d) (rnd : Nat → α) :
    if 8 * d ≤ (maxAlloc : Int) then
      ∃ p, newPerceptron d rnd = some p ∧ (p.weights.length : Int) = d ∧
        ∀ calls : List (Call α), (∀ c ∈ calls, c.inputsHaveLength d.toNat = true) →
          ((runCalls calls p).state.weights.length : Int) = d
    else newPerceptron d rnd = none := by
  by_cases hcap : 8 * d ≤ (maxAlloc : Int)
  · rw [if_pos hcap]
    have hl : ((⟨newPerceptronLoop rnd d.toNat 1 [], 1 - 2 * rnd 0⟩ :
        perceptron α).weights.length : Int) = d := by
      simp [newPerceptronLoop_length, Int.toNat_of_nonneg hd]
    refine ⟨_, newPerceptron_of_inRange d hd hcap rnd, hl, ?_⟩
    intro calls _
    rw [runCalls_state_length]
    exact hl
  · rw [if_neg hcap]
    simp only [newPerceptron, if_pos (Or.inr (not_le.mp hcap))]

theorem weights_length_invariant_witness :
    ∃ p : perceptron ℚ, newPerceptron 2 (fun _ => (1 / 4 : ℚ)) = some p ∧
      (p.weights.length : Int) = 2 ∧
      ∀ calls : List (Call ℚ), (∀ c ∈ calls, c.inputsHaveLength (2 : Int).toNat = true) →
        ((runCalls calls p).state.weights.length : Int) = 2 := by
  have h := weights_length_invariant 2 (by decide) (fun _ => (1 / 4 : ℚ))
  rw [if_pos (by norm_num [maxAlloc])] at h
  exact h

/-- C12: `threshold(x)` is `1` for every `x > 0` and `0` for every `x <= 0`;
so `threshold(0)` is `0` and the result is always `0` or `1`. -/
theorem threshold_spec (x : α) :
    (0 < x → threshold x = 1) ∧ (x ≤ 0 → threshold x = 0) ∧
      threshold (0 : α) = 0 ∧ (threshold x = 0 ∨ threshold x = 1) := by
  refine ⟨fun h => if_pos h, fun h => if_neg (not_lt.mpr h), if_neg (lt_irrefl _), ?_⟩
  by_cases h : 0 < x
  · exact Or.inr (if_pos h)
  · exact Or.inl (if_neg h)

/-- C13 (failing inputs): in `float64` arithmetic `sigmoid(37)` is exactly `1`
and `sigmoid(-710)` is exactly `0`, so the result is not strictly between `0`
and `1`; `sigmoid(0)` is `1/2`. -/
theorem sigmoid_saturates :
    sigmoid expSamples (F64.fin 37) = F64.fin 1 ∧
      (sigmoid expSamples (F64.fin 37)).lt (F64.fin 1) = false ∧
      sigmoid expSamples (F64.fin (-710)) = F64.fin 0 ∧
      (F64.fin 0).lt (sigmoid expSamples (F64.fin (-710))) = false ∧
      sigmoid expSamples (F64.fin 0) = F64.fin (1 / 2) := by
  refine ⟨sigmoid_expSamples_37, ?_, sigmoid_expSamples_neg710, ?_, sigmoid_expSamples_zero⟩
  · rw [sigmoid_expSamples_37]
    simp [F64.lt]
  · rw [sigmoid_expSamples_neg710]
    simp [F64.lt]

/-- C14 (counterexample): `36 < 36.25`, yet in `float64` arithmetic
`sigmoid(36)` and `sigmoid(36.25)` are the same number `1 - 2^-52`, strictly
inside `(0, 1)`: the results are not strictly increasing. -/
theorem sigmoid_not_strictly_increasing :
    (F64.fin 36).lt (F64.fin (145 / 4)) = true ∧
      sigmoid expSamples (F64.fin 36) = F64.fin (1 - (2 : ℚ) ^ (-52 : ℤ)) ∧
      sigmoid expSamples (F64.fin (145 / 4)) = F64.fin (1 - (2 : ℚ) ^ (-52 : ℤ)) ∧
      (sigmoid expSamples (F64.fin 36)).lt (sigmoid expSamples (F64.fin (145 / 4))) = false := by
  refine ⟨?_, sigmoid_expSamples_36, sigmoid_expSamples_3625, ?_⟩
  · norm_num [F64.lt]
  · rw [sigmoid_expSamples_36, sigmoid_expSamples_3625]
    simp [F64.lt]

/-- C14 (amended): `sigmoid` is non-decreasing in `float64` arithmetic: for
`x <= y`, `sigmoid(x) <= sigmoid(y)`, whenever `math.Exp` is non-decreasing
and never negative. -/
theorem sigmoid_nondecreasing (exp : F64 → F64)
    (hmono : ∀ u v, u.le v = true → (exp u).le (exp v) = true)
    (hnn : ∀ u, u ≠ F64.nan → (exp u).nonneg = true)
    (x y : F64) (hxy : x.le y = true) :
    (sigmoid exp x).le (sigmoid exp y) = true := by
  have hx : x ≠ F64.nan := by
    intro h
    rw [h] at hxy
    simp [F64.le] at hxy
  exact sigmoid_le_of_exp_le exp x y (hnn x hx) (hmono x y hxy)

theorem sigmoid_nondecreasing_witness :
    (sigmoid expSamples (F64.fin 0)).le (sigmoid expSamples (F64.fin 37)) = true :=
  sigmoid_nondecreasing expSamples expSamples_mono expSamples_nonneg (F64.fin 0) (F64.fin 37)
    (by norm_num [F64.le])

/-- C15 (counterexample): in `float64` arithmetic, with weight `2^60`, input
`1`, rate `1` and delta `1`, all positive, `backPropagate` leaves the weight at
`2^60`: the increment is absorbed by the rounding of the sum. -/
theorem backPropagate64_absorbs :
    backPropagate64 ⟨[F64.fin (2 ^ 60)], F64.fin 0⟩ [F64.fin 1] (F64.fin 1) (F64.fin 1)
        = Exec.returned ⟨[F64.fin (2 ^ 60)], F64.fin 1⟩ ∧
      (F64.fin (2 ^ 60)).lt (F64.fin (2 ^ 60)) = false := by
  have hm : F64.mul (F64.fin 1) (F64.fin 1) = F64.fin 1 := by
    show F64.round (1 * 1) = F64.fin 1
    rw [mul_one, round_one]
  have hb : F64.add (F64.fin 0) (F64.fin 1) = F64.fin 1 := by
    show F64.round (0 + 1) = F64.fin 1
    rw [zero_add, round_one]
  have hw : F64.add (F64.fin (2 ^ 60)) (F64.fin 1) = F64.fin (2 ^ 60) := round_absorb
  constructor
  · rw [backPropagate64_of_eq ⟨[F64.fin (2 ^ 60)], F64.fin 0⟩ [F64.fin 1] (F64.fin 1)
      (F64.fin 1) rfl]
    simp only [List.zipWith_cons_cons, List.zipWith_nil_right, hm, hb, hw]
  · simp [F64.lt]

/-- C15 (amended): in `float64` arithmetic, for a perceptron whose weights and
bias are finite numbers, an input of its dimension with all entries positive,
a positive rate and a positive delta, `backPropagate` returns normally and the
bias and every weight are greater than or equal to their previous values. -/
theorem backPropagate64_nondecreasing (p : perceptron F64) (input : List F64)
    (delta rate : F64) (h : input.length = p.weights.length)
    (hw : ∀ w ∈ p.weights, w.isNumber = true) (hb : p.bias.isNumber = true)
    (hpos : ∀ x ∈ input, x.isPositive = true)
    (hrate : rate.isPositive = true) (hdelta : delta.isPositive = true) :
    ∃ q, backPropagate64 p input delta rate = Exec.returned q ∧
      p.bias.le q.bias = true ∧
      q.weights.length = p.weights.length ∧
      ∀ i : Fin p.weights.length,
        ∃ w, q.weights[i.val]? = some w ∧ (p.weights.get i).le w = true := by
  have hrd : (F64.mul rate delta).nonneg = true := mul_nonneg_of_positive hrate hdelta
  refine ⟨_, backPropagate64_of_eq p input delta rate h, le_add_of_nonneg hb hrd, ?_, ?_⟩
  · simp [h]
  · intro i
    have hi : i.val < input.length := lt_of_lt_of_eq i.isLt h.symm
    refine ⟨F64.add (p.weights.get i) (F64.mul (F64.mul rate delta) (input.get ⟨i.val, hi⟩)),
      ?_, ?_⟩
    · simp [List.getElem?_zipWith, List.getElem?_eq_getElem i.isLt,
        List.getElem?_eq_getElem hi]
    · exact le_add_of_nonneg (hw _ (List.get_mem _ _ _))
        (mul_nonneg_of_nonneg_positive hrd (hpos _ (List.get_mem _ _ _)))

theorem backPropagate64_nondecreasing_witness :
    ∃ q, backPropagate64 ⟨[F64.fin (2 ^ 60), F64.fin 1], F64.fin 0⟩ [F64.fin 1, F64.fin 2]
          (F64.fin 1) (F64.fin (1 / 2)) = Exec.returned q ∧
      (F64.fin 0).le q.bias = true ∧
      q.weights.length = 2 ∧
      ∀ i : Fin 2, ∃ w, q.weights[i.val]? = some w ∧
        (([F64.fin (2 ^ 60), F64.fin 1] : List F64).get i).le w = true :=
  backPropagate64_nondecreasing ⟨[F64.fin (2 ^ 60), F64.fin 1], F64.fin 0⟩
    [F64.fin 1, F64.fin 2] (F64.fin 1) (F64.fin (1 / 2)) rfl
    (by
      intro w hw
      simp only [List.mem_cons, List.mem_singleton, List.not_mem_nil, or_false] at hw
      rcases hw with rfl | rfl
      · simp [F64.isNumber, round_two_pow_60]
      · simp [F64.isNumber, round_one])
    (by simp [F64.isNumber, round_zero])
    (by
      intro x hx
      simp only [List.mem_cons, List.mem_singleton, List.not_mem_nil, or_false] at hx
      rcases hx with rfl | rfl <;> simp [F64.isPositive])
    (by simp [F64.isPositive]) (by simp [F64.isPositive])

/-- C16: `feedForward` and `verify`, run on a perceptron, leave the weights and
the bias unchanged; so after any sequence of `feedForward` and `verify` calls
the state is the initial one, and a second `feedForward` call with the same
input and decision function, made after a first one and any such sequence,
has the same outcome (the same output) as the first. -/
theorem feedForward_verify_pure (p : perceptron α) (calls : List (Call α))
    (hro : ∀ c ∈ calls, c.readOnly = true) (input : List α) (f : α → α) :
    (feedForwardExec input f p).state = p ∧
      (∀ (inputs : List (List α)) (cls : List α) (g : α → α),
        (verifyExec inputs cls g p).state = p) ∧
      (runCalls calls p).state = p ∧
      feedForwardExec input f (runCalls calls (feedForwardExec input f p).state).state
        = feedForwardExec input f p ∧
      (feedForwardExec input f p).value = feedForward p input f := by
  refine ⟨feedForwardExec_state input f p, fun inputs cls g => verifyExec_state inputs cls g p,
    runCalls_readOnly_state calls p hro, ?_, ?_⟩
  · rw [feedForwardExec_state, runCalls_readOnly_state calls p hro]
  · rw [feedForwardExec_eq]
    cases feedForward p input f <;> rfl

theorem feedForward_verify_pure_witness :
    (feedForwardExec [1, 1] threshold (⟨[1, 2], 3⟩ : perceptron ℚ)).state = ⟨[1, 2], 3⟩ ∧
      (∀ (inputs : List (List ℚ)) (cls : List ℚ) (g : ℚ → ℚ),
        (verifyExec inputs cls g (⟨[1, 2], 3⟩ : perceptron ℚ)).state = ⟨[1, 2], 3⟩) ∧
      (runCalls [Call.feedForward [1, 1] threshold, Call.verify [[1, 1]] [1] threshold]
        (⟨[1, 2], 3⟩ : perceptron ℚ)).state = ⟨[1, 2], 3⟩ ∧
      feedForwardExec [1, 1] threshold
          (runCalls [Call.feedForward [1, 1] threshold, Call.verify [[1, 1]] [1] threshold]
            (feedForwardExec [1, 1] threshold (⟨[1, 2], 3⟩ : perceptron ℚ)).state).state
        = feedForwardExec [1, 1] threshold (⟨[1, 2], 3⟩ : perceptron ℚ) ∧
      (feedForwardExec [1, 1] threshold (⟨[1, 2], 3⟩ : perceptron ℚ)).value
        = feedForward (⟨[1, 2], 3⟩ : perceptron ℚ) [1, 1] threshold :=
  feedForward_verify_pure (⟨[1, 2], 3⟩ : perceptron ℚ)
    [Call.feedForward [1, 1] threshold, Call.verify [[1, 1]] [1] threshold]
    (by intro c hc; simp at hc; rcases hc with rfl | rfl <;> rfl) [1, 1] threshold

/-- C17: the perceptron with weights `[0.5, -0.25]` and bias `1.0` is rendered
as `"[0.50, -0.25], 1.00"`; in general `String()` is `"["`, the weights each
rendered to two decimal places and joined by `", "`, then `"], "` and the bias
rendered to two decimal places. -/
theorem String_two_decimals :
    perceptron.String sprintf02f (⟨[1 / 2, -1 / 4], 1⟩ : perceptron ℚ) = "[0.50, -0.25], 1.00" ∧
      ∀ p : perceptron ℚ,
        p.String sprintf02f
          = "[" ++ ", ".intercalate (p.weights.map sprintf02f) ++ "], " ++ sprintf02f p.bias := by
  refine ⟨?_, perceptron_String_eq sprintf02f⟩
  have h1 : sprintf02f (1 / 2) = "0.50" := by
    norm_num [sprintf02f, twoDigits]
    rfl
  have h2 : sprintf02f (-1 / 4) = "-0.25" := by
    norm_num [sprintf02f, twoDigits]
    rfl
  have h3 : sprintf02f 1 = "1.00" := by
    norm_num [sprintf02f, twoDigits]
    rfl
  rw [perceptron_String_eq]
  simp only [List.map_cons, List.map_nil, h1, h2, h3]
  rfl

/-- C18: `learn` is order-sensitive: from the same initial state, one pass
over a dataset and one pass over a permutation of it (inputs and labels
permuted together) end in different states. -/
theorem learn_order_sensitive :
    ∃ (p : perceptron ℚ) (f : ℚ → ℚ) (rate : ℚ) (inputs inputs' : List (List ℚ))
      (cls cls' : List ℚ) (q q' : perceptron ℚ),
      (inputs'.zip cls').Perm (inputs.zip cls) ∧
      inputs.length = cls.length ∧ inputs'.length = cls'.length ∧
      learn p f inputs cls rate = Exec.returned q ∧
      learn p f inputs' cls' rate = Exec.returned q' ∧
      (q.weights ≠ q'.weights ∨ q.bias ≠ q'.bias) := by
  refine ⟨⟨[0], 0⟩, threshold, 1, [[1], [2]], [[2], [1]], [1, 0], [0, 1],
    ⟨[-1], 0⟩, ⟨[1], 1⟩, List.Perm.swap _ _ _, rfl, rfl, ?_, ?_, ?_⟩
  · norm_num [learn, learnLoop, feedForward, feedForwardLoop, backPropagate,
      backPropagateLoop, threshold]
  · norm_num [learn, learnLoop, feedForward, feedForwardLoop, backPropagate,
      backPropagateLoop, threshold]
  · right
    norm_num

/-- C19: on a well-formed dataset, a perceptron that classifies every sample
exactly is a fixed point of `learn`; and once `verify` returns `1` on the
dataset, any number of further `learn` passes returns normally in the same
state, on which `verify` still returns `1`. -/
theorem learn_fixed_point (p : perceptron α) (f : α → α) (rate : α)
    (inputs : List (List α)) (cls : List α) (hlen : inputs.length = cls.length)
    (hdim : ∀ x ∈ inputs, x.length = p.weights.length) :
    ((∀ s ∈ inputs.zip cls, feedForward p s.1 f = some s.2) →
        learn p f inputs cls rate = Exec.returned p) ∧
      (verify p inputs cls f = some (Quo.num 1) →
        ∀ n, ∃ q, learnPasses f inputs cls rate n p = Exec.returned q ∧ q = p ∧
          verify q inputs cls f = some (Quo.num 1)) := by
  refine ⟨learn_of_all_correct p f rate inputs cls hlen hdim, ?_⟩
  intro hv n
  have hall := all_correct_of_verify_one p f inputs cls hlen hdim hv
  exact ⟨p, learnPasses_of_fixed f inputs cls rate p
    (learn_of_all_correct p f rate inputs cls hlen hdim hall) n, rfl, hv⟩

theorem learn_fixed_point_witness :
    learn (⟨[1, 0], 0⟩ : perceptron ℚ) threshold scenarioInputs scenarioClass (1 / 10)
        = Exec.returned ⟨[1, 0], 0⟩ ∧
      ∀ n, ∃ q, learnPasses threshold scenarioInputs scenarioClass (1 / 10) n
          (⟨[1, 0], 0⟩ : perceptron ℚ) = Exec.returned q ∧ q = ⟨[1, 0], 0⟩ ∧
        verify q scenarioInputs scenarioClass threshold = some (Quo.num 1) := by
  have h := learn_fixed_point (⟨[1, 0], 0⟩ : perceptron ℚ) threshold (1 / 10)
    scenarioInputs scenarioClass rfl (scenario_wellFormed 1 0 0).2
  refine ⟨h.1 ?_, h.2 ?_⟩
  · intro s hs
    simp only [scenarioInputs, scenarioClass, List.zip_cons_cons, List.zip_nil_right,
      List.mem_cons, List.mem_singleton, List.not_mem_nil, or_false] at hs
    rcases hs with rfl | rfl | rfl | rfl <;>
      norm_num [feedForward, feedForwardLoop, threshold]
  · norm_num [verify, verifyLoop, fdiv, feedForward, feedForwardLoop, threshold,
      scenarioInputs, scenarioClass]

/-- C20: for two well-formed datasets, a `learn` pass over the first followed
by a `learn` pass over the second returns the same state as one `learn` pass
over their concatenation; hence `k` repeated passes over a dataset equal one
pass over the dataset repeated `k` times, and `learn` on the empty dataset
changes nothing. -/
theorem learn_concat (p : perceptron α) (f : α → α) (rate : α)
    (in1 : List (List α)) (cls1 : List α) (in2 : List (List α)) (cls2 : List α)
    (h1 : in1.length = cls1.length) (h2 : in2.length = cls2.length)
    (hd1 : ∀ x ∈ in1, x.length = p.weights.length)
    (hd2 : ∀ x ∈ in2, x.length = p.weights.length) :
    (∃ q r, learn p f in1 cls1 rate = Exec.returned q ∧
        learn q f in2 cls2 rate = Exec.returned r ∧
        learn p f (in1 ++ in2) (cls1 ++ cls2) rate = Exec.returned r) ∧
      (∀ k, learnPasses f in1 cls1 rate k p
        = learn p f (List.replicate k in1).flatten (List.replicate k cls1).flatten rate) ∧
      learn p f [] [] rate = Exec.returned p := by
  refine ⟨?_, fun k => learnPasses_eq_learn_replicate f rate in1 cls1 h1 k p hd1, rfl⟩
  obtain ⟨q, hq, hqlen, happ⟩ :=
    learn_append_of_wellFormed p f rate in1 cls1 in2 cls2 h1 h2 hd1 hd2
  refine ⟨q, _, hq,
    learn_of_wellFormed q f rate in2 cls2 h2 (fun x hx => by rw [hqlen]; exact hd2 x hx), ?_⟩
  rw [happ]
  exact learn_of_wellFormed q f rate in2 cls2 h2 (fun x hx => by rw [hqlen]; exact hd2 x hx)

theorem learn_concat_witness :
    (∃ q r, learn (⟨[1, 2], 3⟩ : perceptron ℚ) threshold [[1, 1]] [0] (1 / 10)
          = Exec.returned q ∧
        learn q threshold [[-1, -1]] [1] (1 / 10) = Exec.returned r ∧
        learn (⟨[1, 2], 3⟩ : perceptron ℚ) threshold ([[1, 1]] ++ [[-1, -1]]) ([0] ++ [1])
          (1 / 10) = Exec.returned r) ∧
      (∀ k, learnPasses threshold [[1, 1]] [0] (1 / 10) k (⟨[1, 2], 3⟩ : perceptron ℚ)
        = learn (⟨[1, 2], 3⟩ : perceptron ℚ) threshold (List.replicate k [[1, 1]]).flatten
            (List.replicate k [0]).flatten (1 / 10)) ∧
      learn (⟨[1, 2], 3⟩ : perceptron ℚ) threshold [] [] (1 / 10)
        = Exec.returned ⟨[1, 2], 3⟩ :=
  learn_concat (⟨[1, 2], 3⟩ : perceptron ℚ) threshold (1 / 10) [[1, 1]] [0] [[-1, -1]] [1]
    rfl rfl (by simp) (by simp)

end GoPerceptron
